import Mathlib

/-!
# Verification of the `hwt` crate (Hamming Weight Tree)

A shallow embedding of the core of the `hwt` Rust crate: the scalar search
kernels (`src/search/radius.rs`, `src/search/exact.rs`), the CHF bit-parallel
primitives (`src/chf.rs`), the tree index (`src/hwt.rs`), the distance-indexed
node queue (`src/hamming_queue.rs`) and the k-best feature heap
(`src/feature_heap.rs`).

Machine integers are embedded as `ℕ` (for `u32`/`u128`/`usize`) and `ℤ`
(for `i32`, whose arithmetic in the kernels stays far inside the `i32`
range on all in-range inputs); Rust's `i32` division truncates toward
zero, embedded as `Int.tdiv`.  Fallible operations (panicking indexing,
`unwrap`, assertions) are embedded with `Option`.
-/

/-- Hamming weight (popcount) of a natural number, with structural fuel
(the fuel only needs to be at least the bit length, and `popcountAux n n`
always suffices): `u128::count_ones`. -/
def popcountAux : ℕ → ℕ → ℕ
  | 0, _ => 0
  | _, 0 => 0
  | fuel + 1, n + 1 => (n + 1) % 2 + popcountAux fuel ((n + 1) / 2)

/-- Hamming weight (popcount) of a natural number: `u128::count_ones`. -/
def popcount (n : ℕ) : ℕ := popcountAux n n

/-- `popcountAux` does not depend on the fuel, as long as it dominates. -/
theorem popcountAux_fuel (n : ℕ) : ∀ fuel1 fuel2 : ℕ, n ≤ fuel1 → n ≤ fuel2 →
    popcountAux fuel1 n = popcountAux fuel2 n := by
  induction n using Nat.strong_induction_on with
  | _ n ih =>
    intro fuel1 fuel2 h1 h2
    match n, fuel1, fuel2 with
    | 0, f1, f2 => cases f1 <;> cases f2 <;> rfl
    | m + 1, f1 + 1, f2 + 1 =>
      show (m + 1) % 2 + popcountAux f1 ((m + 1) / 2) =
        (m + 1) % 2 + popcountAux f2 ((m + 1) / 2)
      rw [ih ((m + 1) / 2) (by omega) f1 f2 (by omega) (by omega)]

/-- The defining recurrence of `popcount`. -/
theorem popcount_succ (n : ℕ) (h : n ≠ 0) : popcount n = n % 2 + popcount (n / 2) := by
  obtain ⟨m, rfl⟩ := Nat.exists_eq_succ_of_ne_zero h
  show popcountAux (m + 1) (m + 1) = (m + 1) % 2 + popcount ((m + 1) / 2)
  rw [popcountAux, popcountAux_fuel ((m + 1) / 2) m ((m + 1) / 2) (by omega) (by omega)]
  rfl

/-- Hamming distance `D(a,b) = popcount(a XOR b)`. -/
def hdist (a b : ℕ) : ℕ := popcount (a ^^^ b)

/-- Rust half-open integer range `a..b`, as a list (in ascending order). -/
def intRange (a b : ℤ) : List ℤ := (List.range (b - a).toNat).map (fun (i : ℕ) => a + (i : ℤ))

/-- Rust inclusive integer range `a..=b`, as a list (in ascending order). -/
def intRangeIncl (a b : ℤ) : List ℤ := intRange a (b + 1)

/-- `itertools`' `interleave`: alternate elements of the two lists, starting
with the first list; once one runs out, yield the rest of the other. -/
def interleave {α : Type} : List α → List α → List α
  | [], ys => ys
  | x :: xs, [] => x :: xs
  | x :: xs, y :: ys => x :: y :: interleave xs ys

/-- Rust's `x as i32` on a `u32` value `x` (< `2^32`): value-preserving
below `2^31`, wrapping to a negative value from `2^31` on. -/
def u32_as_i32 (x : ℕ) : ℤ := if x < 2 ^ 31 then (x : ℤ) else (x : ℤ) - 2 ^ 32

/-- The `u32 → i32` cast is value-preserving on `[0, 2^31)`. -/
theorem u32_as_i32_eq (x : ℕ) (h : x < 2 ^ 31) : u32_as_i32 x = (x : ℤ) := by
  rw [u32_as_i32, if_pos h]

namespace Search

/-- The scalar radius-search kernel `search_radius` of `src/search/radius.rs`
(lines 205-266).  Emits `([tl, tw - tl], sod)` pairs: the flat interval of the
piecewise-linear SOD function first, then the interleaving of the `down` range
(ascending, exactly as the Rust `start..min_inflection` range iterates) with
the `up` range.  The `as i32` casts on the inputs wrap (`u32_as_i32`); the
subsequent `i32` arithmetic is embedded into `ℤ` (exact whenever the inputs
are small enough that it cannot overflow, e.g. `radius + 6 * bits < 2^31`
with the weight bounds `sl ≤ bits`, `sw ≤ 2*bits`, `tw ≤ 2*bits`); `sod` and
the emitted pair components are cast back to `ℕ` (`as u32`, value-preserving
because in that regime the filter guarantees `0 ≤ tl ≤ tw`). -/
def search_radius (bits sl sw tw radius : ℕ) : List ((ℕ × ℕ) × ℕ) :=
  let tlmax : ℕ := min tw bits
  let tlmin : ℕ := tw - tlmax
  let slz : ℤ := u32_as_i32 sl
  let swz : ℤ := u32_as_i32 sw
  let twz : ℤ := u32_as_i32 tw
  let radz : ℤ := u32_as_i32 radius
  let c : ℤ := 2 * slz - swz + twz
  let filt : ℤ → Bool := fun tl => decide (u32_as_i32 tlmin ≤ tl ∧ tl ≤ u32_as_i32 tlmax)
  let mp : ℤ → (ℕ × ℕ) × ℕ := fun tl =>
    ((tl.toNat, (twz - tl).toNat),
      ((tl - slz).natAbs + ((twz - tl) - (swz - slz)).natAbs))
  let bottom_distance : ℤ := (twz - swz).natAbs
  if bottom_distance ≤ radz then
    let start := (-radz + c + 1).tdiv 2
    let inflection1 := slz
    let inflection2 := slz - swz + twz
    let min_inflection := min inflection1 inflection2
    let max_inflection := max inflection1 inflection2
    let endv := (radz + c).tdiv 2
    let down := intRange start min_inflection
    let flat := intRangeIncl min_inflection max_inflection
    let up := intRangeIncl (max_inflection + 1) endv
    ((flat ++ interleave down up).filter filt).map mp
  else
    -- the Rust code builds empty fake iterators and chains them: no output
    []

/-- The scalar exact-search kernel `search_exact` of `src/search/exact.rs`
(lines 195-250).  Emits `[tl, tw - tl]` pairs. -/
def search_exact (bits sl sw tw radius : ℕ) : List (ℕ × ℕ) :=
  let tlmax : ℕ := min tw bits
  let tlmin : ℕ := tw - tlmax
  let filt : ℤ → Bool := fun tl => decide ((tlmin : ℤ) ≤ tl ∧ tl ≤ (tlmax : ℤ))
  let slz : ℤ := sl
  let swz : ℤ := sw
  let twz : ℤ := tw
  let radz : ℤ := radius
  let c : ℤ := 2 * slz - swz + twz
  let bottom_distance : ℤ := (twz - swz).natAbs
  let mp : ℤ → ℕ × ℕ := fun tl => (tl.toNat, (twz - tl).toNat)
  if bottom_distance = radz then
    let inflection1 := slz
    let inflection2 := twz - (swz - slz)
    let min_inflection := min inflection1 inflection2
    let max_inflection := max inflection1 inflection2
    ((intRangeIncl min_inflection max_inflection).filter filt).map mp
  else if bottom_distance < radz then
    let start := (-radz + c + 1).tdiv 2
    let endv := (radz + c).tdiv 2
    (([start, endv]).filter filt).map mp
  else
    []

/-- The SOD (sum of absolute weight differences) induced by a left-child
weight `tl`, for search scalars `sl`, `sw` and target parent weight `tw`:
`|tl - sl| + |(tw - tl) - (sw - sl)|`. -/
def sod (sl sw tw : ℕ) (tl : ℤ) : ℕ :=
  (tl - (sl : ℤ)).natAbs + (((tw : ℤ) - tl) - ((sw : ℤ) - (sl : ℤ))).natAbs

end Search

/-! ### Range and interleave lemmas -/

theorem mem_intRange {lo hi a : ℤ} : a ∈ intRange lo hi ↔ lo ≤ a ∧ a < hi := by
  constructor
  · intro h
    obtain ⟨i, h1, h2⟩ := List.mem_map.mp h
    rw [List.mem_range] at h1
    omega
  · intro h
    apply List.mem_map.mpr
    refine ⟨(a - lo).toNat, ?_, ?_⟩
    · rw [List.mem_range]
      omega
    · omega

theorem mem_intRangeIncl {lo hi a : ℤ} : a ∈ intRangeIncl lo hi ↔ lo ≤ a ∧ a ≤ hi := by
  rw [intRangeIncl, mem_intRange]
  omega

theorem intRange_nodup (lo hi : ℤ) : (intRange lo hi).Nodup := by
  unfold intRange
  apply List.Nodup.map
  · intro i j h
    simp only at h
    omega
  · exact List.nodup_range _

theorem intRangeIncl_nodup (lo hi : ℤ) : (intRangeIncl lo hi).Nodup :=
  intRange_nodup _ _

theorem interleave_perm {α : Type} (xs ys : List α) :
    (interleave xs ys).Perm (xs ++ ys) := by
  induction xs generalizing ys with
  | nil => simp [interleave]
  | cons x xs ih =>
    match ys with
    | [] => simp [interleave]
    | y :: ys =>
      rw [interleave]
      refine ((((ih ys).cons y).trans ?_).cons x)
      exact (List.perm_middle).symm

/-- Bounds relating Rust's truncating `i32` division by 2 to its argument. -/
theorem two_tdiv_two_bounds (n : ℤ) :
    n - 1 ≤ 2 * n.tdiv 2 ∧ (0 ≤ n → 2 * n.tdiv 2 ≤ n) ∧
      (n ≤ 0 → n ≤ 2 * n.tdiv 2 ∧ 2 * n.tdiv 2 ≤ n + 1) := by
  rcases le_or_lt 0 n with h | h
  · rw [Int.tdiv_eq_ediv h (by norm_num)]
    omega
  · have h2 : n.tdiv 2 = -((-n).tdiv 2) := by rw [← Int.neg_tdiv, neg_neg]
    rw [h2, Int.tdiv_eq_ediv (by omega) (by norm_num)]
    omega

/-! ### C5 and C6: scalar kernel failures -/

/-- **C5** (code_bug evidence): the scalar exact-search kernel, called with
`(bits, sl, sw, tw, radius) = (64, 0, 0, 0, 1)`, emits the value `tl = 0`
twice, although the SOD of `tl = 0` is `0`, not the requested exact
radius `1` (the set `{tl : SOD(tl) = 1}` is empty because every reachable
SOD has the parity of `tw - sw`). -/
theorem search_exact_parity_failure :
    Search.search_exact 64 0 0 0 1 = [(0, 0), (0, 0)] ∧ Search.sod 0 0 0 0 ≠ 1 := by
  decide

/-- **C6** (code_bug evidence): at `(bits, sl, sw, tw, radius) =
(64, 58, 72, 68, 10)` the scalar radius-search kernel emits the SOD sequence
`[4, 4, 4, 4, 4, 10, 6, 8, 8, 6, 10]`, which is not nondecreasing (the
`down` range is iterated in ascending `tl` order, hence descending SOD
order, before being interleaved). -/
theorem search_radius_order_failure :
    ((Search.search_radius 64 58 72 68 10).map Prod.snd) =
      [4, 4, 4, 4, 4, 10, 6, 8, 8, 6, 10] ∧
    ((Search.search_radius 64 58 72 68 10).map Prod.snd).get? 5 = some 10 ∧
    ((Search.search_radius 64 58 72 68 10).map Prod.snd).get? 6 = some 6 ∧
    ¬ (10 : ℕ) ≤ 6 := by
  decide

theorem mem_interleave {α : Type} {a : α} {xs ys : List α} :
    a ∈ interleave xs ys ↔ a ∈ xs ∨ a ∈ ys := by
  rw [(interleave_perm xs ys).mem_iff, List.mem_append]

namespace Search

/-- Membership characterization for the scalar radius kernel when every
input cast is value-preserving: the emitted elements are exactly the
canonical `((tl, tw - tl), sod tl)` triples for `tl` ranging over the union
of the `flat`, `down` and `up` ranges, clipped to the valid target domain. -/
theorem search_radius_mem {bits sl sw tw radius : ℕ} {p : (ℕ × ℕ) × ℕ}
    (hsl : sl < 2 ^ 31) (hsw : sw < 2 ^ 31) (htw : tw < 2 ^ 31)
    (hrad : radius < 2 ^ 31) :
    p ∈ search_radius bits sl sw tw radius ↔
      (((((tw : ℤ) - (sw : ℤ)).natAbs : ℤ) ≤ (radius : ℤ)) ∧
      ∃ tl : ℤ,
        ((min (sl : ℤ) ((sl : ℤ) - sw + tw) ≤ tl ∧
            tl ≤ max (sl : ℤ) ((sl : ℤ) - sw + tw) ∨
          (-(radius : ℤ) + (2 * (sl : ℤ) - sw + tw) + 1).tdiv 2 ≤ tl ∧
            tl < min (sl : ℤ) ((sl : ℤ) - sw + tw) ∨
          max (sl : ℤ) ((sl : ℤ) - sw + tw) + 1 ≤ tl ∧
            tl ≤ ((radius : ℤ) + (2 * (sl : ℤ) - sw + tw)).tdiv 2) ∧
         ((tw - min tw bits : ℕ) : ℤ) ≤ tl ∧ tl ≤ ((min tw bits : ℕ) : ℤ)) ∧
        ((tl.toNat, ((tw : ℤ) - tl).toNat),
          (tl - (sl : ℤ)).natAbs + ((tw : ℤ) - tl - ((sw : ℤ) - sl)).natAbs) = p) := by
  simp only [search_radius]
  rw [u32_as_i32_eq sl hsl, u32_as_i32_eq sw hsw, u32_as_i32_eq tw htw,
    u32_as_i32_eq radius hrad, u32_as_i32_eq (tw - min tw bits) (by omega),
    u32_as_i32_eq (min tw bits) (by omega)]
  split
  case isTrue h =>
    simp only [List.mem_map, List.mem_filter, mem_interleave, List.mem_append,
      mem_intRange, mem_intRangeIncl, decide_eq_true_eq]
    simp only [h, true_and]
  case isFalse h =>
    simp only [List.not_mem_nil, false_iff]
    intro hc
    exact h hc.1

end Search

/-- **C7** (corrected): for every scalar tuple `(bits, sl, sw, tw, radius)`
with `sl ≤ sw`, `sl ≤ bits`, `sw ≤ 2*bits`, `tw ≤ 2*bits` and additionally
`radius + 6*bits < 2^31` — so that the kernel's `u32 → i32` casts are
value-preserving and its `i32` arithmetic cannot overflow — the scalar
radius kernel emits, without duplicates, exactly the `tl` in
`[max(0, tw - bits), min(tw, bits)]` whose SOD is at most `radius`, each
paired with `tw - tl` and its exact SOD; and the output is empty whenever
`radius < |tw - sw|`.  Without the cast bound the claim fails: at
`radius = 2^31` the cast wraps negative (see `search_radius_wrap_failure`). -/
theorem search_radius_scalar_spec (bits sl sw tw radius : ℕ)
    (h1 : sl ≤ sw) (h2 : sl ≤ bits) (h3 : sw ≤ 2 * bits) (h4 : tw ≤ 2 * bits)
    (h5 : radius + 6 * bits < 2 ^ 31) :
    ((Search.search_radius bits sl sw tw radius).map (fun p => p.1.1)).Nodup ∧
    (∀ p ∈ Search.search_radius bits sl sw tw radius,
        p.2 = Search.sod sl sw tw (p.1.1 : ℤ) ∧ p.1.2 = tw - p.1.1) ∧
    (∀ tl : ℕ, (((tl, tw - tl), Search.sod sl sw tw (tl : ℤ)) ∈
          Search.search_radius bits sl sw tw radius)
        ↔ (tw - bits ≤ tl ∧ tl ≤ min tw bits ∧ Search.sod sl sw tw (tl : ℤ) ≤ radius)) ∧
    ((radius : ℤ) < (((tw : ℤ) - (sw : ℤ)).natAbs : ℤ) →
      Search.search_radius bits sl sw tw radius = []) := by
  have hsl : sl < 2 ^ 31 := by omega
  have hsw : sw < 2 ^ 31 := by omega
  have htw : tw < 2 ^ 31 := by omega
  have hrad : radius < 2 ^ 31 := by omega
  have tdiv1 := two_tdiv_two_bounds (-(radius : ℤ) + (2 * (sl : ℤ) - sw + tw) + 1)
  have tdiv2 := two_tdiv_two_bounds ((radius : ℤ) + (2 * (sl : ℤ) - sw + tw))
  refine ⟨?_, ?_, ?_, ?_⟩
  · -- no duplicate `tl` values
    simp only [Search.search_radius]
    rw [u32_as_i32_eq sl hsl, u32_as_i32_eq sw hsw, u32_as_i32_eq tw htw,
      u32_as_i32_eq radius hrad, u32_as_i32_eq (tw - min tw bits) (by omega),
      u32_as_i32_eq (min tw bits) (by omega)]
    split
    case isFalse h => simp
    case isTrue h =>
      rw [List.map_map]
      apply List.Nodup.map_on
      · intro x hx y hy hxy
        rw [List.mem_filter, decide_eq_true_eq] at hx hy
        simp only [Function.comp] at hxy
        omega
      · apply List.Nodup.filter
        have hperm : ((intRangeIncl (min (sl : ℤ) ((sl : ℤ) - sw + tw))
              (max (sl : ℤ) ((sl : ℤ) - sw + tw))) ++
            ((intRange ((-(radius : ℤ) + (2 * (sl : ℤ) - sw + tw) + 1).tdiv 2)
              (min (sl : ℤ) ((sl : ℤ) - sw + tw))) ++
             (intRangeIncl (max (sl : ℤ) ((sl : ℤ) - sw + tw) + 1)
              (((radius : ℤ) + (2 * (sl : ℤ) - sw + tw)).tdiv 2)))).Perm
            ((intRangeIncl (min (sl : ℤ) ((sl : ℤ) - sw + tw))
              (max (sl : ℤ) ((sl : ℤ) - sw + tw))) ++
            interleave
             (intRange ((-(radius : ℤ) + (2 * (sl : ℤ) - sw + tw) + 1).tdiv 2)
              (min (sl : ℤ) ((sl : ℤ) - sw + tw)))
             (intRangeIncl (max (sl : ℤ) ((sl : ℤ) - sw + tw) + 1)
              (((radius : ℤ) + (2 * (sl : ℤ) - sw + tw)).tdiv 2))) :=
          List.Perm.append_left _ (interleave_perm _ _).symm
        refine hperm.nodup ?_
        rw [List.nodup_append, List.nodup_append]
        refine ⟨intRangeIncl_nodup _ _,
          ⟨intRange_nodup _ _, intRangeIncl_nodup _ _, ?_⟩, ?_⟩
        · intro a ha hb
          rw [mem_intRange] at ha
          rw [mem_intRangeIncl] at hb
          omega
        · intro a ha hb
          rw [mem_intRangeIncl] at ha
          rw [List.mem_append] at hb
          rw [mem_intRange, mem_intRangeIncl] at hb
          omega
  · -- every emitted element is the canonical pair of its `tl`
    intro p hp
    rw [Search.search_radius_mem hsl hsw htw hrad] at hp
    obtain ⟨hbr, tl, ⟨hloc, hge, hle⟩, heq⟩ := hp
    subst heq
    have h0 : (0 : ℤ) ≤ tl := by omega
    constructor
    · show (tl - (sl : ℤ)).natAbs + ((tw : ℤ) - tl - ((sw : ℤ) - sl)).natAbs =
        Search.sod sl sw tw ((tl.toNat : ℕ) : ℤ)
      rw [Search.sod]
      have : ((tl.toNat : ℕ) : ℤ) = tl := by omega
      rw [this]
    · show ((tw : ℤ) - tl).toNat = tw - tl.toNat
      omega
  · -- membership of the canonical pair is exactly the claimed set
    intro tlN
    rw [Search.search_radius_mem hsl hsw htw hrad]
    constructor
    · rintro ⟨hbr, tl, ⟨hloc, hge, hle⟩, heq⟩
      rw [Prod.mk.injEq, Prod.mk.injEq] at heq
      obtain ⟨⟨e1, -⟩, -⟩ := heq
      have htl : tl = (tlN : ℤ) := by omega
      subst htl
      rw [Search.sod]
      omega
    · rintro ⟨hA, hB, hC⟩
      rw [Search.sod] at hC
      have hbr : ((((tw : ℤ) - (sw : ℤ)).natAbs : ℤ)) ≤ (radius : ℤ) := by omega
      refine ⟨hbr, (tlN : ℤ), ⟨?_, by omega, by omega⟩, ?_⟩
      · omega
      · have e1 : ((tlN : ℤ)).toNat = tlN := by omega
        have e2 : ((tw : ℤ) - (tlN : ℤ)).toNat = tw - tlN := by omega
        rw [e1, e2, Search.sod]
  · -- empty below the SOD floor
    intro h
    simp only [Search.search_radius]
    rw [u32_as_i32_eq sl hsl, u32_as_i32_eq sw hsw, u32_as_i32_eq tw htw,
      u32_as_i32_eq radius hrad, u32_as_i32_eq (tw - min tw bits) (by omega),
      u32_as_i32_eq (min tw bits) (by omega)]
    split
    case isTrue h' => omega
    case isFalse h' => rfl

/-- Witness for `search_radius_scalar_spec` at the concrete tuple
`(bits, sl, sw, tw, radius) = (64, 58, 72, 68, 10)`. -/
theorem search_radius_scalar_spec_witness :
    (58 ≤ 72 ∧ 58 ≤ 64 ∧ 72 ≤ 2 * 64 ∧ 68 ≤ 2 * 64 ∧ 10 + 6 * 64 < 2 ^ 31) ∧
    (((Search.search_radius 64 58 72 68 10).map (fun p => p.1.1)).Nodup ∧
    (∀ p ∈ Search.search_radius 64 58 72 68 10,
        p.2 = Search.sod 58 72 68 (p.1.1 : ℤ) ∧ p.1.2 = 68 - p.1.1) ∧
    (∀ tl : ℕ, (((tl, 68 - tl), Search.sod 58 72 68 (tl : ℤ)) ∈
          Search.search_radius 64 58 72 68 10)
        ↔ (68 - 64 ≤ tl ∧ tl ≤ min 68 64 ∧ Search.sod 58 72 68 (tl : ℤ) ≤ 10)) ∧
    (((10 : ℕ) : ℤ) < ((((68 : ℕ) : ℤ) - ((72 : ℕ) : ℤ)).natAbs : ℤ) →
      Search.search_radius 64 58 72 68 10 = [])) :=
  ⟨⟨by decide, by decide, by decide, by decide, by decide⟩,
    search_radius_scalar_spec 64 58 72 68 10 (by decide) (by decide) (by decide)
      (by decide) (by decide)⟩

/-- **C7** (counterexample to the unamended claim): the tuple
`(bits, sl, sw, tw, radius) = (64, 0, 0, 0, 2^31)` satisfies every
hypothesis of the original claim (`sl ≤ sw`, `sl ≤ bits`, `sw ≤ 2*bits`,
`tw ≤ 2*bits`), and `tl = 0` lies in the claimed set — it is in
`[max(0, tw - bits), min(tw, bits)]` with `SOD(0) = 0 ≤ radius` — yet the
kernel emits nothing: the source's `radius as i32` wraps `2^31` to
`i32::MIN`, making the `bottom_distance <= radius` intersection test fail,
so the claim is false without a bound keeping the casts in range. -/
theorem search_radius_wrap_failure :
    ((0 : ℕ) ≤ 0 ∧ (0 : ℕ) ≤ 64 ∧ (0 : ℕ) ≤ 2 * 64 ∧ (0 : ℕ) ≤ 2 * 64) ∧
    ((0 : ℕ) - 64 ≤ 0 ∧ (0 : ℕ) ≤ min 0 64 ∧
      Search.sod 0 0 0 ((0 : ℕ) : ℤ) ≤ 2 ^ 31) ∧
    Search.search_radius 64 0 0 0 (2 ^ 31) = [] := by
  decide

/-! ### CHF levels and per-feature indices -/

/-- Field `i` (width `w` bits, counting fields from the least significant
end) of a packed word. -/
def fieldAt (w i x : ℕ) : ℕ := (x >>> (w * i)) % 2 ^ w

/-- Modelled from the spec: the CHF-based `indices` module used by
`src/hwt.rs` is missing from the source snapshot (the snapshot's
`src/indices.rs` is an older incompatible revision), so `CHF_k(f)` is
modelled from the spec's data model: it packs the popcounts of the `2^k`
equal-width substrings of the 128-bit feature `f` into fields of width
`128 / 2^k` (`CHF_0` is the overall weight, `CHF_7` is `f` itself). -/
def chfLevel (k f : ℕ) : ℕ :=
  ∑ i ∈ Finset.range (2 ^ k), popcount (fieldAt (128 / 2 ^ k) i f) * 2 ^ (128 / 2 ^ k * i)

/-- Modelled from the spec: `indices128(f) = [CHF_0(f), …, CHF_7(f)]`, the
eight 128-bit packed weight words of a feature, with `indices[d]` the key of
a depth-`d` trie node. -/
def indices128 (f : ℕ) : List ℕ := (List.range 8).map (fun k => chfLevel k f)

/-! ### The Hwt index (`src/hwt.rs`) -/

/-- The leaf-promotion / brute-force threshold `TAU = 1 << 16`. -/
def TAU : ℕ := 1 <<< 16

/-- The per-level precision-search thresholds `TABLE_TAUS` (all zero). -/
def TABLE_TAUS : List ℕ := [0, 0, 0, 0, 0, 0, 0]

/-- A trie node (`enum Internal`): a leaf bucket of features, or a map from
CHF keys to child node indices.  The `HashMap` is embedded as an association
list in insertion order (the Rust map's iteration order is unspecified;
lookups use key equality only, and keys are distinct). -/
inductive Internal : Type
  | vec (v : List ℕ)
  | map (m : List (ℕ × ℕ))
deriving DecidableEq

/-- `struct Hwt`: the bump-allocated slab of internal nodes, and the count
of inserted features. -/
structure Hwt : Type where
  internals : List Internal
  count : ℕ
deriving DecidableEq

/-- `Hwt::new` / `Default::default`: a single empty root leaf. -/
def Hwt.new : Hwt := ⟨[Internal.vec []], 0⟩

/-- `Hwt::len`. -/
def Hwt.len (h : Hwt) : ℕ := h.count

/-- The fold inside `Hwt::convert`: re-bin each feature of the old leaf
bucket by its `indices128[level]` key, allocating a fresh leaf node per new
key (`allocate_internal` appends to the slab and asserts the index fits in
`u32`; pushing into a just-created non-leaf is `unreachable!`, `none`
here). -/
def Hwt.convertFold (level : ℕ) : List ℕ → List (ℕ × ℕ) → List Internal →
    Option (List (ℕ × ℕ) × List Internal)
  | [], m, ints => some (m, ints)
  | f :: rest, m, ints =>
    let index := (indices128 f).getD level 0
    match m.find? (fun e => e.1 == index) with
    | some e =>
        match ints.get? e.2 with
        | some (Internal.vec v) =>
            Hwt.convertFold level rest m (ints.set e.2 (Internal.vec (v ++ [f])))
        | _ => none
    | none =>
        if ints.length < 2 ^ 32 - 1 then
          -- allocate a fresh (empty) leaf at the end of the slab and push
          -- the feature into it
          Hwt.convertFold level rest (m ++ [(index, ints.length)])
            (ints ++ [Internal.vec [f]])
        else none

/-- `Hwt::convert`: replace the leaf at slab index `internal` (serving tree
depth `level`) by a map node, re-binning its features by
`indices128[level]`.  The Rust code first swaps the old vector out for an
empty one. -/
def Hwt.convert (h : Hwt) (internal level : ℕ) : Option Hwt :=
  match h.internals.get? internal with
  | some (Internal.vec v) =>
      match Hwt.convertFold level v [] (h.internals.set internal (Internal.vec [])) with
      | some (m, ints) => some ⟨ints.set internal (Internal.map m), h.count⟩
      | none => none
  | _ => none  -- panic: "tried to convert an InternalStore::Map"

/-- The per-level walk of `Hwt::insert` (the `for (i, &tc)` loop over
`indices128(feature)`, followed by the post-loop insertion).  `bucket` is
the current slab index, `i` the current depth. -/
def Hwt.insertGo (h : Hwt) (feature : ℕ) : List ℕ → ℕ → ℕ → Option Hwt
  | [], _, bucket =>
      -- the loop consumed every index: add the item at the bottom of the tree
      match h.internals.get? bucket with
      | some (Internal.vec v) =>
          some ⟨h.internals.set bucket (Internal.vec (v ++ [feature])), h.count⟩
      | _ => none  -- panic: "Can't have InternalStore::Map at bottom of tree"
  | tc :: rest, i, bucket =>
      match h.internals.get? bucket with
      | some (Internal.vec v) =>
          let h1 : Hwt := ⟨h.internals.set bucket (Internal.vec (v ++ [feature])), h.count⟩
          if v.length + 1 > TAU then h1.convert bucket i else some h1
      | some (Internal.map m) =>
          match m.find? (fun e => e.1 == tc) with
          | some e => Hwt.insertGo h feature rest (i + 1) e.2
          | none =>
              -- `create_internal = Some(tc)`: allocate a fresh leaf holding
              -- the feature, and bind it to the vacant key
              if h.internals.length < 2 ^ 32 - 1 then
                some ⟨(h.internals ++ [Internal.vec [feature]]).set bucket
                    (Internal.map (m ++ [(tc, h.internals.length)])), h.count⟩
              else none
      | none => none  -- out-of-bounds slab index

/-- `Hwt::insert` (src/hwt.rs lines 138-191): the count is incremented
unconditionally before the walk. -/
def Hwt.insert (h : Hwt) (feature : ℕ) : Option Hwt :=
  Hwt.insertGo ⟨h.internals, h.count + 1⟩ feature (indices128 feature) 0 0

/-- The walk of `Hwt::contains` (src/hwt.rs lines 205-223): note the loop
runs once per entry of `indices128` and returns `false` when the indices
are exhausted, without inspecting the depth-8 bucket. -/
def Hwt.containsGo (h : Hwt) (feature : ℕ) : List ℕ → ℕ → Option Bool
  | [], _ => some false
  | index :: rest, bucket =>
      match h.internals.get? bucket with
      | some (Internal.vec v) => some (v.any (fun n => n == feature))
      | some (Internal.map m) =>
          match m.find? (fun e => e.1 == index) with
          | some e => Hwt.containsGo h feature rest e.2
          | none => some false
      | none => none

/-- `Hwt::contains`. -/
def Hwt.contains (h : Hwt) (feature : ℕ) : Option Bool :=
  Hwt.containsGo h feature (indices128 feature) 0

/-- The `Hwt` after inserting the features of `fs` in order, starting from
the empty index. -/
def hwtAfter (fs : List ℕ) : Option Hwt := fs.foldlM Hwt.insert Hwt.new

/-- The map-node arm of `Hwt::bucket_scan_radius`: iterate the entries,
keep those whose key passes `filter`, and concatenate the `subtable`
results on the kept children. -/
def Hwt.scanMap (entries : List (ℕ × ℕ)) (subtable : ℕ → Option (List ℕ))
    (filter : ℕ → Option Bool) : Option (List ℕ) :=
  match entries with
  | [] => some []
  | e :: rest =>
      match filter e.1 with
      | none => none
      | some true =>
          match subtable e.2, Hwt.scanMap rest subtable filter with
          | some l, some ls => some (l ++ ls)
          | _, _ => none
      | some false => Hwt.scanMap rest subtable filter

/-- `Hwt::bucket_scan_radius` (src/hwt.rs lines 700-733): scan one bucket;
leaf features are filtered by true Hamming distance to the query, map keys
are filtered by `filter`, and kept children are recursed into via
`subtable`.  `filter` and `subtable` return `Option` because the
bottom-level instantiations panic. -/
def Hwt.bucket_scan_radius (h : Hwt) (radius feature : ℕ) (bucket : ℕ)
    (subtable : ℕ → Option (List ℕ)) (filter : ℕ → Option Bool) :
    Option (List ℕ) :=
  match h.internals.get? bucket with
  | some (Internal.vec v) =>
      some (v.filter (fun leaf => hdist leaf feature ≤ radius))
  | some (Internal.map m) => Hwt.scanMap m subtable filter
  | none => none

/-- `Hwt::radius128`: finding a map node this far down panics (both the
subtable and the filter panic when invoked). -/
def Hwt.radius128 (h : Hwt) (radius feature : ℕ) (bucket : ℕ) : Option (List ℕ) :=
  h.bucket_scan_radius radius feature bucket (fun _ => none) (fun _ => none)

/-- `Hwt::radius64`: filter keys of this bucket against `indices128[7]`. -/
def Hwt.radius64 (h : Hwt) (radius feature : ℕ) (bucket : ℕ) : Option (List ℕ) :=
  let index := (indices128 feature).getD 7 0
  h.bucket_scan_radius radius feature bucket (h.radius128 radius feature)
    (fun tc => some (decide (hdist tc index ≤ radius)))

/-- `Hwt::radius32`. -/
def Hwt.radius32 (h : Hwt) (radius feature : ℕ) (bucket : ℕ) : Option (List ℕ) :=
  let index := (indices128 feature).getD 6 0
  h.bucket_scan_radius radius feature bucket (h.radius64 radius feature)
    (fun tc => some (decide (hdist tc index ≤ radius)))

/-- `Hwt::radius16`. -/
def Hwt.radius16 (h : Hwt) (radius feature : ℕ) (bucket : ℕ) : Option (List ℕ) :=
  let index := (indices128 feature).getD 5 0
  h.bucket_scan_radius radius feature bucket (h.radius32 radius feature)
    (fun tc => some (decide (hdist tc index ≤ radius)))

/-- `Hwt::radius8`. -/
def Hwt.radius8 (h : Hwt) (radius feature : ℕ) (bucket : ℕ) : Option (List ℕ) :=
  let index := (indices128 feature).getD 4 0
  h.bucket_scan_radius radius feature bucket (h.radius16 radius feature)
    (fun tc => some (decide (hdist tc index ≤ radius)))

/-- `Hwt::radius4`. -/
def Hwt.radius4 (h : Hwt) (radius feature : ℕ) (bucket : ℕ) : Option (List ℕ) :=
  let index := (indices128 feature).getD 3 0
  h.bucket_scan_radius radius feature bucket (h.radius8 radius feature)
    (fun tc => some (decide (hdist tc index ≤ radius)))

/-- `Hwt::radius2`. -/
def Hwt.radius2 (h : Hwt) (radius feature : ℕ) (bucket : ℕ) : Option (List ℕ) :=
  let index := (indices128 feature).getD 2 0
  h.bucket_scan_radius radius feature bucket (h.radius4 radius feature)
    (fun tc => some (decide (hdist tc index ≤ radius)))

/-- `Hwt::search_radius` (src/hwt.rs lines 597-607): the root scan filters
the root's keys against `indices128(feature)[1]`. -/
def Hwt.search_radius (h : Hwt) (radius feature : ℕ) : Option (List ℕ) :=
  let index := (indices128 feature).getD 1 0
  h.bucket_scan_radius radius feature 0 (h.radius2 radius feature)
    (fun tc => some (decide (hdist tc index ≤ radius)))

/-! ### C3: radius-search soundness -/

theorem Hwt.scanMap_sound {q r : ℕ} {sub : ℕ → Option (List ℕ)}
    {filt : ℕ → Option Bool}
    (hsub : ∀ b l, sub b = some l → ∀ f ∈ l, hdist f q ≤ r) :
    ∀ (entries : List (ℕ × ℕ)) (l : List ℕ),
      Hwt.scanMap entries sub filt = some l → ∀ f ∈ l, hdist f q ≤ r := by
  intro entries
  induction entries with
  | nil =>
    intro l h f hf
    rw [Hwt.scanMap] at h
    cases h
    cases hf
  | cons e rest ih =>
    intro l h f hf
    rw [Hwt.scanMap] at h
    cases hfil : filt e.1 with
    | none => rw [hfil] at h; cases h
    | some b =>
      rw [hfil] at h
      cases b with
      | false => exact ih l h f hf
      | true =>
        cases hsub1 : sub e.2 with
        | none => rw [hsub1] at h; cases h
        | some l1 =>
          rw [hsub1] at h
          cases hrest : Hwt.scanMap rest sub filt with
          | none => rw [hrest] at h; cases h
          | some l2 =>
            rw [hrest] at h
            cases h
            rcases List.mem_append.mp hf with h1 | h2
            · exact hsub e.2 l1 hsub1 f h1
            · exact ih l2 hrest f h2

theorem Hwt.bucket_scan_radius_sound (h : Hwt) {q r : ℕ} (bucket : ℕ)
    {sub : ℕ → Option (List ℕ)} {filt : ℕ → Option Bool}
    (hsub : ∀ b l, sub b = some l → ∀ f ∈ l, hdist f q ≤ r) :
    ∀ l, h.bucket_scan_radius r q bucket sub filt = some l →
      ∀ f ∈ l, hdist f q ≤ r := by
  intro l hl f hf
  rw [Hwt.bucket_scan_radius] at hl
  cases hget : h.internals.get? bucket with
  | none => rw [hget] at hl; cases hl
  | some node =>
    rw [hget] at hl
    cases node with
    | vec v =>
      cases hl
      obtain ⟨-, hd⟩ := List.mem_filter.mp hf
      exact of_decide_eq_true hd
    | map m => exact Hwt.scanMap_sound hsub m l hl f hf

theorem Hwt.radius128_sound (h : Hwt) (r q bucket : ℕ) :
    ∀ l, h.radius128 r q bucket = some l → ∀ f ∈ l, hdist f q ≤ r :=
  h.bucket_scan_radius_sound bucket (fun _ _ hc => by cases hc)

theorem Hwt.radius64_sound (h : Hwt) (r q bucket : ℕ) :
    ∀ l, h.radius64 r q bucket = some l → ∀ f ∈ l, hdist f q ≤ r :=
  h.bucket_scan_radius_sound bucket (fun b => h.radius128_sound r q b)

theorem Hwt.radius32_sound (h : Hwt) (r q bucket : ℕ) :
    ∀ l, h.radius32 r q bucket = some l → ∀ f ∈ l, hdist f q ≤ r :=
  h.bucket_scan_radius_sound bucket (fun b => h.radius64_sound r q b)

theorem Hwt.radius16_sound (h : Hwt) (r q bucket : ℕ) :
    ∀ l, h.radius16 r q bucket = some l → ∀ f ∈ l, hdist f q ≤ r :=
  h.bucket_scan_radius_sound bucket (fun b => h.radius32_sound r q b)

theorem Hwt.radius8_sound (h : Hwt) (r q bucket : ℕ) :
    ∀ l, h.radius8 r q bucket = some l → ∀ f ∈ l, hdist f q ≤ r :=
  h.bucket_scan_radius_sound bucket (fun b => h.radius16_sound r q b)

theorem Hwt.radius4_sound (h : Hwt) (r q bucket : ℕ) :
    ∀ l, h.radius4 r q bucket = some l → ∀ f ∈ l, hdist f q ≤ r :=
  h.bucket_scan_radius_sound bucket (fun b => h.radius8_sound r q b)

theorem Hwt.radius2_sound (h : Hwt) (r q bucket : ℕ) :
    ∀ l, h.radius2 r q bucket = some l → ∀ f ∈ l, hdist f q ≤ r :=
  h.bucket_scan_radius_sound bucket (fun b => h.radius4_sound r q b)

/-- **C3**: every feature yielded by a successful `search_radius(r, q)` has
Hamming distance at most `r` to the query: the leaf scan filters by the true
Hamming distance and the radius is passed down unchanged. -/
theorem search_radius_soundness (h : Hwt) (radius feature : ℕ)
    (hr : radius ≤ 128) (l : List ℕ)
    (hl : h.search_radius radius feature = some l) :
    ∀ f ∈ l, hdist f feature ≤ radius :=
  h.bucket_scan_radius_sound 0 (fun b => h.radius2_sound radius feature b) l hl

/-- Witness for `search_radius_soundness`: the index holding just the
feature `5`, searched at radius 1 around `5`, yields `[5]`. -/
theorem search_radius_soundness_witness :
    (1 ≤ 128 ∧
      (Hwt.mk [Internal.vec [5]] 1).search_radius 1 5 = some [5] ∧ 5 ∈ [5]) ∧
    hdist 5 5 ≤ 1 :=
  ⟨⟨by decide, by decide, by decide⟩,
    search_radius_soundness (Hwt.mk [Internal.vec [5]] 1) 1 5 (by decide) [5]
      (by decide) 5 (by decide)⟩

/-! ### State-evolution lemmas for insertion (used for C1, C2, C8) -/

theorem List.set_get?_self {α : Type} :
    ∀ (l : List α) (i : ℕ) (a : α), l.get? i = some a → l.set i a = l := by
  intro l
  induction l with
  | nil => intro i a h; cases h
  | cons x xs ih =>
    intro i a h
    cases i with
    | zero => cases h; rfl
    | succ j =>
      rw [List.set_cons_succ]
      rw [ih j a h]

/-- Inserting into an index whose root leaf is below the promotion
threshold simply appends the feature to the root leaf. -/
theorem insert_small_root (l : List ℕ) (c q : ℕ) (hl : l.length < TAU) :
    Hwt.insert ⟨[Internal.vec l], c⟩ q = some ⟨[Internal.vec (l ++ [q])], c + 1⟩ := by
  obtain ⟨i0, rest, hIdx⟩ : ∃ i0 rest, indices128 q = i0 :: rest := ⟨_, _, rfl⟩
  rw [Hwt.insert, hIdx, Hwt.insertGo]
  simp only [List.get?_cons_zero]
  rw [if_neg (by omega : ¬ (l.length + 1 > TAU))]
  rfl

/-- Filling the root leaf with `n` copies of `q` while staying below the
promotion threshold. -/
theorem hwt_fill (q : ℕ) : ∀ (n : ℕ) (l : List ℕ) (c : ℕ), l.length + n ≤ TAU →
    List.foldlM Hwt.insert (⟨[Internal.vec l], c⟩ : Hwt) (List.replicate n q) =
      some ⟨[Internal.vec (l ++ List.replicate n q)], c + n⟩ := by
  intro n
  induction n with
  | zero =>
    intro l c h
    simp [List.foldlM]
  | succ m ih =>
    intro l c h
    rw [List.replicate_succ, List.foldlM_cons,
      insert_small_root l c q (by omega)]
    show List.foldlM Hwt.insert (⟨[Internal.vec (l ++ [q])], c + 1⟩ : Hwt)
        (List.replicate m q) = _
    rw [ih (l ++ [q]) (c + 1) (by simp; omega)]
    have h1 : (l ++ [q]) ++ List.replicate m q = l ++ List.replicate (m + 1) q := by
      rw [List.append_assoc, List.singleton_append, ← List.replicate_succ]
    have h2 : c + 1 + m = c + (m + 1) := by omega
    rw [h1, h2, List.replicate_succ]

/-- Steady state of the `convert` fold over identical features: once the
key is bound to node `L`, each further feature is pushed into `L`. -/
theorem convertFold_steady (level q k L : ℕ)
    (hk : (indices128 q).getD level 0 = k) :
    ∀ (n : ℕ) (ints : List Internal) (w : List ℕ) (m : List (ℕ × ℕ)),
      m.find? (fun e => e.1 == k) = some (k, L) →
      ints.get? L = some (Internal.vec w) →
      Hwt.convertFold level (List.replicate n q) m ints =
        some (m, ints.set L (Internal.vec (w ++ List.replicate n q))) := by
  intro n
  induction n with
  | zero =>
    intro ints w m hf hg
    rw [List.replicate_zero, Hwt.convertFold]
    rw [List.append_nil, List.set_get?_self ints L _ hg]
  | succ nn ih =>
    intro ints w m hf hg
    rw [List.replicate_succ, Hwt.convertFold]
    simp only [hk, hf, hg]
    rw [ih (ints.set L (Internal.vec (w ++ [q]))) (w ++ [q]) m hf
      (by rw [List.get?_set_eq, hg]; rfl)]
    rw [List.set_set, List.append_assoc, List.singleton_append,
      ← List.replicate_succ]

/-- `Hwt::convert` on a leaf holding `N + 1` copies of a single feature `q`
produces a one-key map pointing at a fresh leaf with the same contents. -/
theorem convert_replicate (I : List Internal) (b level N c q : ℕ)
    (hb : I.get? b = some (Internal.vec (List.replicate (N + 1) q)))
    (hlen : I.length < 2 ^ 32 - 1) :
    Hwt.convert ⟨I, c⟩ b level =
      some ⟨(I.set b (Internal.map [((indices128 q).getD level 0, I.length)]))
          ++ [Internal.vec (List.replicate (N + 1) q)], c⟩ := by
  have hblt : b < I.length := by
    by_contra hge
    rw [List.get?_eq_none.mpr (by omega)] at hb
    cases hb
  have hfold : Hwt.convertFold level (List.replicate (N + 1) q) []
      (I.set b (Internal.vec [])) =
      some ([((indices128 q).getD level 0, I.length)],
        (I.set b (Internal.vec [])) ++ [Internal.vec (List.replicate (N + 1) q)]) := by
    rw [List.replicate_succ]
    simp only [Hwt.convertFold, List.find?_nil]
    rw [if_pos (by rw [List.length_set]; exact hlen)]
    have harg :
        ([] : List (ℕ × ℕ)) ++ [((indices128 q).getD level 0, (I.set b (Internal.vec [])).length)] =
          [((indices128 q).getD level 0, I.length)] := by
      rw [List.nil_append, List.length_set]
    rw [harg]
    have hget : ((I.set b (Internal.vec [])) ++ [Internal.vec [q]]).get? I.length =
        some (Internal.vec [q]) := by
      rw [List.get?_append_right (by rw [List.length_set])]
      rw [List.length_set, Nat.sub_self]
      rfl
    rw [convertFold_steady level q ((indices128 q).getD level 0) I.length rfl N
      _ [q] _ (by simp [List.find?_cons]) hget]
    have hset : ((I.set b (Internal.vec [])) ++ [Internal.vec [q]]).set I.length
        (Internal.vec ([q] ++ List.replicate N q)) =
        (I.set b (Internal.vec [])) ++ [Internal.vec (List.replicate (N + 1) q)] := by
      rw [List.set_append, if_neg (by rw [List.length_set]; omega)]
      rw [List.length_set, Nat.sub_self, List.singleton_append, ← List.replicate_succ]
      rfl
    rw [hset, List.replicate_succ]
  rw [Hwt.convert]
  simp only [hb, hfold]
  have hfin : ((I.set b (Internal.vec [])) ++
        [Internal.vec (List.replicate (N + 1) q)]).set b
        (Internal.map [((indices128 q).getD level 0, I.length)]) =
      (I.set b (Internal.map [((indices128 q).getD level 0, I.length)]))
        ++ [Internal.vec (List.replicate (N + 1) q)] := by
    rw [List.set_append, if_pos (by rw [List.length_set]; omega), List.set_set]
  rw [hfin]

/-- Stepping `insertGo` through an existing map binding. -/
theorem insertGo_map_step (I : List Internal) (c q : ℕ) (rest : List ℕ)
    (tc i b : ℕ) (m : List (ℕ × ℕ)) (b' : ℕ)
    (hb : I.get? b = some (Internal.map m))
    (hf : m.find? (fun e => e.1 == tc) = some (tc, b')) :
    Hwt.insertGo ⟨I, c⟩ q (tc :: rest) i b = Hwt.insertGo ⟨I, c⟩ q rest (i + 1) b' := by
  rw [Hwt.insertGo]
  simp only [hb, hf]

/-- `insertGo` at a map node with a vacant key: allocate a fresh leaf
holding the feature and bind the key to it. -/
theorem insertGo_map_vacant (I : List Internal) (c q : ℕ) (rest : List ℕ)
    (tc i b : ℕ) (m : List (ℕ × ℕ))
    (hb : I.get? b = some (Internal.map m))
    (hf : m.find? (fun e => e.1 == tc) = none)
    (hlen : I.length < 2 ^ 32 - 1) :
    Hwt.insertGo ⟨I, c⟩ q (tc :: rest) i b =
      some ⟨(I ++ [Internal.vec [q]]).set b (Internal.map (m ++ [(tc, I.length)])), c⟩ := by
  rw [Hwt.insertGo]
  simp only [hb, hf]
  rw [if_pos hlen]

/-- `insertGo` at an over-threshold leaf of identical features: push, then
promote the leaf via `convert`. -/
theorem insertGo_vec_overflow (I : List Internal) (c q : ℕ) (rest : List ℕ)
    (tc i b M : ℕ)
    (hb : I.get? b = some (Internal.vec (List.replicate M q)))
    (hM : M + 1 > TAU) (hlen : I.length < 2 ^ 32 - 1) :
    Hwt.insertGo ⟨I, c⟩ q (tc :: rest) i b =
      some ⟨(I.set b (Internal.map [((indices128 q).getD i 0, I.length)]))
          ++ [Internal.vec (List.replicate (M + 1) q)], c⟩ := by
  have hblt : b < I.length := by
    by_contra hge
    rw [List.get?_eq_none.mpr (by omega)] at hb
    cases hb
  rw [Hwt.insertGo]
  simp only [hb]
  rw [if_pos (by rw [List.length_replicate]; exact hM)]
  show Hwt.convert ⟨I.set b (Internal.vec (List.replicate M q ++ [q])), c⟩ b i = _
  rw [← List.replicate_succ']
  rw [convert_replicate (I.set b (Internal.vec (List.replicate (M + 1) q))) b i M c q
    (by rw [List.get?_set_eq, hb]; rfl)
    (by rw [List.length_set]; exact hlen)]
  rw [List.set_set, List.length_set]

/-- `Option` bind on a `some`, as a rewrite rule. -/
theorem option_some_bind {α β : Type} (a : α) (f : α → Option β) :
    (some a >>= f) = f a := rfl

/-- After `TAU + 1` insertions of one feature `q`, the root has been
promoted: it is a one-key map pointing at a leaf with all the copies. -/
theorem hwtAfter_overflow (q : ℕ) :
    hwtAfter (List.replicate (TAU + 1) q) =
      some ⟨[Internal.map [((indices128 q).getD 0 0, 1)],
        Internal.vec (List.replicate (TAU + 1) q)], TAU + 1⟩ := by
  rw [hwtAfter, List.replicate_succ', List.foldlM_append]
  rw [show Hwt.new = (⟨[Internal.vec []], 0⟩ : Hwt) from rfl]
  rw [hwt_fill q TAU [] 0 (by simp)]
  rw [option_some_bind]
  rw [List.nil_append, Nat.zero_add, List.foldlM_cons]
  obtain ⟨i0, rest, hIdx⟩ : ∃ i0 rest, indices128 q = i0 :: rest := ⟨_, _, rfl⟩
  rw [show Hwt.insert ⟨[Internal.vec (List.replicate TAU q)], TAU⟩ q =
      Hwt.insertGo ⟨[Internal.vec (List.replicate TAU q)], TAU + 1⟩ q (i0 :: rest) 0 0 from by
    rw [Hwt.insert, hIdx]]
  rw [insertGo_vec_overflow [Internal.vec (List.replicate TAU q)] (TAU + 1) q rest i0 0 0 TAU
    rfl (by omega) (by norm_num)]
  rw [option_some_bind, List.foldlM_nil, ← List.replicate_succ']
  rfl

/-- **C1** (code_bug evidence): after inserting the feature `2^64`
65537 times (promoting the root to a map), `search_radius(0, 2^64)`
returns the empty list even though the inserted feature is at distance
`0 ≤ 0` from the query: the root scan filters the root's `CHF_0` keys
against `indices128(query)[1]` with an xor-popcount test, which rejects
the query's own bucket. -/
theorem search_radius_incompleteness :
    ∃ s : Hwt,
      hwtAfter (List.replicate 65537 (2 ^ 64)) = some s ∧
      (2 ^ 64) ∈ List.replicate 65537 (2 ^ 64) ∧
      hdist (2 ^ 64) (2 ^ 64) ≤ 0 ∧
      s.search_radius 0 (2 ^ 64) = some [] := by
  refine ⟨⟨[Internal.map [(1, 1)],
      Internal.vec (List.replicate 65537 (2 ^ 64))], 65537⟩, ?_, ?_, ?_, ?_⟩
  · have h := hwtAfter_overflow (2 ^ 64)
    rw [show TAU + 1 = 65537 from by decide] at h
    rw [show (indices128 (2 ^ 64)).getD 0 0 = 1 from by decide] at h
    exact h
  · exact List.mem_replicate.mpr ⟨by decide, rfl⟩
  · decide
  · decide

/-- The chain of one-key map nodes produced by repeatedly promoting leaves
full of copies of the feature `0` (whose CHF keys are all `0`). -/
def Mchain (j : ℕ) : List Internal :=
  (List.range j).map (fun i => Internal.map [(0, i + 1)])

theorem Mchain_length (j : ℕ) : (Mchain j).length = j := by
  simp [Mchain]

theorem Mchain_succ (j : ℕ) :
    Mchain (j + 1) = Mchain j ++ [Internal.map [(0, j + 1)]] := by
  rw [Mchain, List.range_succ, List.map_append]
  rfl

theorem Mchain_get? (j t : ℕ) (ht : t < j) (tail : List Internal) :
    (Mchain j ++ tail).get? t = some (Internal.map [(0, t + 1)]) := by
  rw [List.get?_append (by rw [Mchain_length]; exact ht)]
  rw [Mchain, List.get?_map, List.get?_range ht]
  rfl

/-- Walking `insertGo` for feature `0` down a chain of one-key maps. -/
theorem insertGo_walk_zero (c : ℕ) (I : List Internal) :
    ∀ (j i b r : ℕ),
      (∀ t, t < j → I.get? (b + t) = some (Internal.map [(0, b + t + 1)])) →
      j ≤ r →
      Hwt.insertGo ⟨I, c⟩ 0 (List.replicate r 0) i b =
        Hwt.insertGo ⟨I, c⟩ 0 (List.replicate (r - j) 0) (i + j) (b + j) := by
  intro j
  induction j with
  | zero =>
    intro i b r _ _
    simp
  | succ jj ih =>
    intro i b r hmap hle
    obtain ⟨rr, rfl⟩ : ∃ rr, r = rr + 1 := ⟨r - 1, by omega⟩
    rw [List.replicate_succ]
    rw [insertGo_map_step I c 0 (List.replicate rr 0) 0 i b [(0, b + 1)] (b + 1)
      (by simpa using hmap 0 (by omega)) rfl]
    rw [ih (i + 1) (b + 1) rr (fun t ht => by
      have h := hmap (t + 1) (by omega)
      have e1 : b + (t + 1) = b + 1 + t := by omega
      rw [e1] at h
      have e2 : b + 1 + t + 1 = b + 1 + t + 1 := rfl
      exact h) (by omega)]
    have e3 : rr - jj = rr + 1 - (jj + 1) := by omega
    have e4 : i + 1 + jj = i + (jj + 1) := by omega
    have e5 : b + 1 + jj = b + (jj + 1) := by omega
    rw [e3, e4, e5]

theorem getD_replicate8 (j : ℕ) (hj : j < 8) :
    (List.replicate 8 (0 : ℕ)).getD j 0 = 0 := by
  interval_cases j <;> rfl

set_option maxRecDepth 40000 in
/-- One chain-extension step: inserting yet another copy of `0` into a
`j`-deep chain over an over-full leaf promotes that leaf at depth `j`. -/
theorem chain_step (j : ℕ) (hj : j ≤ 7) :
    Hwt.insert ⟨Mchain j ++ [Internal.vec (List.replicate (TAU + j) 0)], TAU + j⟩ 0 =
      some ⟨Mchain (j + 1) ++ [Internal.vec (List.replicate (TAU + j + 1) 0)],
        TAU + j + 1⟩ := by
  rw [Hwt.insert]
  rw [show indices128 0 = List.replicate 8 0 from by decide]
  show Hwt.insertGo ⟨Mchain j ++ [Internal.vec (List.replicate (TAU + j) 0)], TAU + j + 1⟩ 0
      (List.replicate 8 0) 0 0 = _
  rw [insertGo_walk_zero (TAU + j + 1) (Mchain j ++ [Internal.vec (List.replicate (TAU + j) 0)])
    j 0 0 8 (fun t ht => by simpa using Mchain_get? j t ht _) (by omega)]
  simp only [Nat.zero_add]
  rw [show List.replicate (8 - j) (0 : ℕ) = 0 :: List.replicate (7 - j) 0 from by
    rw [show 8 - j = (7 - j) + 1 from by omega, List.replicate_succ]]
  rw [insertGo_vec_overflow (Mchain j ++ [Internal.vec (List.replicate (TAU + j) 0)])
    (TAU + j + 1) 0 (List.replicate (7 - j) 0) 0 j j (TAU + j)
    (by
      rw [List.get?_append_right (by rw [Mchain_length])]
      rw [Mchain_length, Nat.sub_self]
      rfl)
    (by omega)
    (by simp only [List.length_append, Mchain_length, List.length_singleton]; omega)]
  rw [show indices128 0 = List.replicate 8 0 from by decide]
  rw [getD_replicate8 j (by omega)]
  rw [List.set_append, if_neg (by rw [Mchain_length]; omega)]
  rw [Mchain_length, Nat.sub_self]
  rw [List.length_append, Mchain_length, List.length_singleton]
  rw [show [Internal.vec (List.replicate (TAU + j) 0)].set 0
      (Internal.map [(0, j + 1)]) = [Internal.map [(0, j + 1)]] from rfl]
  rw [Mchain_succ]

/-- After `TAU + j` insertions of the feature `0` (for `1 ≤ j ≤ 8`), the
index is a `j`-deep chain of one-key maps over a leaf with all copies. -/
theorem hwtAfter_chain (j : ℕ) (hj : j ≤ 8) (hj1 : 1 ≤ j) :
    hwtAfter (List.replicate (TAU + j) 0) =
      some ⟨Mchain j ++ [Internal.vec (List.replicate (TAU + j) 0)], TAU + j⟩ := by
  induction j with
  | zero => omega
  | succ jj ih =>
    cases Nat.eq_zero_or_pos jj with
    | inl h0 =>
      subst h0
      have h := hwtAfter_overflow 0
      rw [show (indices128 0).getD 0 0 = 0 from by decide] at h
      exact h
    | inr hpos =>
      rw [← Nat.add_assoc] at *
      rw [List.replicate_succ', hwtAfter, List.foldlM_append]
      rw [show List.foldlM Hwt.insert Hwt.new (List.replicate (TAU + jj) 0) =
        hwtAfter (List.replicate (TAU + jj) 0) from rfl]
      rw [ih (by omega) (by omega)]
      rw [option_some_bind, List.foldlM_cons]
      rw [chain_step jj (by omega)]
      rw [option_some_bind, List.foldlM_nil, ← List.replicate_succ']
      rfl

set_option maxRecDepth 40000 in
/-- **C8** (code_bug evidence): after 65544 insertions of the feature `0`
(which promote all eight levels, creating a depth-8 leaf), `len` correctly
reports 65544 but `contains(0)` returns `false`: the walk of `contains`
runs once per entry of `indices128` and never scans the depth-8 leaf. -/
theorem contains_misses_deep_leaf :
    ∃ s : Hwt,
      hwtAfter (List.replicate 65544 0) = some s ∧
      s.len = 65544 ∧
      (0 : ℕ) ∈ List.replicate 65544 0 ∧
      s.contains 0 = some false := by
  refine ⟨⟨Mchain 8 ++ [Internal.vec (List.replicate 65544 0)], 65544⟩, ?_, rfl, ?_, ?_⟩
  · have h := hwtAfter_chain 8 (by omega) (by omega)
    rw [show TAU + 8 = 65544 from by decide] at h
    exact h
  · exact List.mem_replicate.mpr ⟨by decide, rfl⟩
  · decide

/-! ### The swar bit-parallel primitives (modelled from the spec)

`src/hwt.rs` and `src/search/` use the external `swar` crate's `Bits{W}<u128>`
types: a 128-bit word divided into `128/W` fields of `W` bits.  Modelled from
the spec (section 4.A/4.B.4): `count_ones` sums the fields, `pack_ones` sums
adjacent field pairs into double-width fields, `halve` splits the word into
its high (left) and low (right) 64-bit halves re-packed with double-width
fields, and `union` is the inverse shift-or. -/

/-- Modelled from the spec: `swar` `BitsW::count_ones` — the sum of all
`128/w` fields of width `w`. -/
def countOnesAt (w x : ℕ) : ℕ :=
  ∑ i ∈ Finset.range (128 / w), fieldAt w i x

/-- Modelled from the spec: `swar` `BitsW::pack_ones` — sum adjacent field
pairs of width `w` into `64/w` fields of width `2w`. -/
def packOnesAt (w x : ℕ) : ℕ :=
  ∑ i ∈ Finset.range (64 / w), (fieldAt w (2 * i) x + fieldAt w (2 * i + 1) x) * 2 ^ (2 * w * i)

/-- Modelled from the spec: `swar` `BitsW::halve` — the (left, right) halves
of the word, each with its `64/w` fields of width `w` re-packed into fields
of width `2w`. -/
def halveAt (w x : ℕ) : ℕ × ℕ :=
  (∑ i ∈ Finset.range (64 / w), fieldAt w (64 / w + i) x * 2 ^ (2 * w * i),
   ∑ i ∈ Finset.range (64 / w), fieldAt w i x * 2 ^ (2 * w * i))

/-- Modelled from the spec: `swar` `BitsW::union` — narrow the `64/w` fields
of width `2w` of each half back to width `w` and place the left half in the
high 64 bits (a shift-or). -/
def unionAt (w l r : ℕ) : ℕ :=
  ((∑ i ∈ Finset.range (64 / w), fieldAt (2 * w) i l * 2 ^ (w * i)) <<< 64) |||
    (∑ i ∈ Finset.range (64 / w), fieldAt (2 * w) i r * 2 ^ (w * i))

namespace Search

/-- `search_radius2` of `src/search/radius.rs` (swar level, parent CHF<0>):
scalar search over the two 64-bit halves, re-encoded as masks of `tl`/`tr`
one bits. -/
def search_radius2 (bits sp sc tp radius : ℕ) : List (ℕ × ℕ) :=
  let sw := countOnesAt 128 sp
  let sl := countOnesAt 64 (sc >>> 64)
  let tw := countOnesAt 128 tp
  (search_radius bits sl sw tw radius).map
    (fun p => ((((2 ^ p.1.1 - 1) <<< 64) ||| (2 ^ p.1.2 - 1)), p.2))

/-- `search_radius4` (parent CHF<1>). -/
def search_radius4 (bits sp sc tp radius : ℕ) : List (ℕ × ℕ) :=
  let lr_sp := halveAt 64 sp
  let lr_sc := halveAt 32 sc
  let lr_tp := halveAt 64 tp
  (search_radius2 bits lr_sp.1 lr_sc.1 lr_tp.1 radius).bind
    (fun ltc => (search_radius2 bits lr_sp.2 lr_sc.2 lr_tp.2 (radius - ltc.2)).map
      (fun rtc => (unionAt 32 ltc.1 rtc.1, ltc.2 + rtc.2)))

/-- `search_radius8` (parent CHF<2>). -/
def search_radius8 (bits sp sc tp radius : ℕ) : List (ℕ × ℕ) :=
  let lr_sp := halveAt 32 sp
  let lr_sc := halveAt 16 sc
  let lr_tp := halveAt 32 tp
  (search_radius4 bits lr_sp.1 lr_sc.1 lr_tp.1 radius).bind
    (fun ltc => (search_radius4 bits lr_sp.2 lr_sc.2 lr_tp.2 (radius - ltc.2)).map
      (fun rtc => (unionAt 16 ltc.1 rtc.1, ltc.2 + rtc.2)))

/-- `search_radius16` (parent CHF<3>). -/
def search_radius16 (bits sp sc tp radius : ℕ) : List (ℕ × ℕ) :=
  let lr_sp := halveAt 16 sp
  let lr_sc := halveAt 8 sc
  let lr_tp := halveAt 16 tp
  (search_radius8 bits lr_sp.1 lr_sc.1 lr_tp.1 radius).bind
    (fun ltc => (search_radius8 bits lr_sp.2 lr_sc.2 lr_tp.2 (radius - ltc.2)).map
      (fun rtc => (unionAt 8 ltc.1 rtc.1, ltc.2 + rtc.2)))

/-- `search_radius32` (parent CHF<4>). -/
def search_radius32 (bits sp sc tp radius : ℕ) : List (ℕ × ℕ) :=
  let lr_sp := halveAt 8 sp
  let lr_sc := halveAt 4 sc
  let lr_tp := halveAt 8 tp
  (search_radius16 bits lr_sp.1 lr_sc.1 lr_tp.1 radius).bind
    (fun ltc => (search_radius16 bits lr_sp.2 lr_sc.2 lr_tp.2 (radius - ltc.2)).map
      (fun rtc => (unionAt 4 ltc.1 rtc.1, ltc.2 + rtc.2)))

/-- `search_radius64` (parent CHF<5>). -/
def search_radius64 (bits sp sc tp radius : ℕ) : List (ℕ × ℕ) :=
  let lr_sp := halveAt 4 sp
  let lr_sc := halveAt 2 sc
  let lr_tp := halveAt 4 tp
  (search_radius32 bits lr_sp.1 lr_sc.1 lr_tp.1 radius).bind
    (fun ltc => (search_radius32 bits lr_sp.2 lr_sc.2 lr_tp.2 (radius - ltc.2)).map
      (fun rtc => (unionAt 2 ltc.1 rtc.1, ltc.2 + rtc.2)))

/-- `search_exact2` of `src/search/exact.rs` (swar level, parent CHF<0>). -/
def search_exact2 (bits sp sc tp radius : ℕ) : List ℕ :=
  let sw := countOnesAt 128 sp
  let sl := countOnesAt 64 (sc >>> 64)
  let tw := countOnesAt 128 tp
  (search_exact bits sl sw tw radius).map
    (fun p => (((2 ^ p.1 - 1) <<< 64) ||| (2 ^ p.2 - 1)))

/-- `search_exact4` (parent CHF<1>). -/
def search_exact4 (bits sp sc tp radius : ℕ) : List ℕ :=
  let lr_sp := halveAt 64 sp
  let lr_sc := halveAt 32 sc
  let lr_tp := halveAt 64 tp
  (search_radius2 bits lr_sp.1 lr_sc.1 lr_tp.1 radius).bind
    (fun ltc => (search_exact2 bits lr_sp.2 lr_sc.2 lr_tp.2 (radius - ltc.2)).map
      (fun rtc => unionAt 32 ltc.1 rtc))

/-- `search_exact8` (parent CHF<2>). -/
def search_exact8 (bits sp sc tp radius : ℕ) : List ℕ :=
  let lr_sp := halveAt 32 sp
  let lr_sc := halveAt 16 sc
  let lr_tp := halveAt 32 tp
  (search_radius4 bits lr_sp.1 lr_sc.1 lr_tp.1 radius).bind
    (fun ltc => (search_exact4 bits lr_sp.2 lr_sc.2 lr_tp.2 (radius - ltc.2)).map
      (fun rtc => unionAt 16 ltc.1 rtc))

/-- `search_exact16` (parent CHF<3>). -/
def search_exact16 (bits sp sc tp radius : ℕ) : List ℕ :=
  let lr_sp := halveAt 16 sp
  let lr_sc := halveAt 8 sc
  let lr_tp := halveAt 16 tp
  (search_radius8 bits lr_sp.1 lr_sc.1 lr_tp.1 radius).bind
    (fun ltc => (search_exact8 bits lr_sp.2 lr_sc.2 lr_tp.2 (radius - ltc.2)).map
      (fun rtc => unionAt 8 ltc.1 rtc))

/-- `search_exact32` (parent CHF<4>). -/
def search_exact32 (bits sp sc tp radius : ℕ) : List ℕ :=
  let lr_sp := halveAt 8 sp
  let lr_sc := halveAt 4 sc
  let lr_tp := halveAt 8 tp
  (search_radius16 bits lr_sp.1 lr_sc.1 lr_tp.1 radius).bind
    (fun ltc => (search_exact16 bits lr_sp.2 lr_sc.2 lr_tp.2 (radius - ltc.2)).map
      (fun rtc => unionAt 4 ltc.1 rtc))

/-- `search_exact64` (parent CHF<5>). -/
def search_exact64 (bits sp sc tp radius : ℕ) : List ℕ :=
  let lr_sp := halveAt 4 sp
  let lr_sc := halveAt 2 sc
  let lr_tp := halveAt 4 tp
  (search_radius32 bits lr_sp.1 lr_sc.1 lr_tp.1 radius).bind
    (fun ltc => (search_exact32 bits lr_sp.2 lr_sc.2 lr_tp.2 (radius - ltc.2)).map
      (fun rtc => unionAt 2 ltc.1 rtc))

/-- `search_exact128` (parent CHF<6>). -/
def search_exact128 (bits sp sc tp radius : ℕ) : List ℕ :=
  let lr_sp := halveAt 2 sp
  let lr_sc := halveAt 1 sc
  let lr_tp := halveAt 2 tp
  (search_radius64 bits lr_sp.1 lr_sc.1 lr_tp.1 radius).bind
    (fun ltc => (search_exact64 bits lr_sp.2 lr_sc.2 lr_tp.2 (radius - ltc.2)).map
      (fun rtc => unionAt 1 ltc.1 rtc))

end Search

/-! ### The k-best feature heap (`src/feature_heap.rs`) -/

/-- `struct FeatureHeap`: 129 distance-indexed buckets (the Rust field has
array type `[Vec<u128>; 129]`, hence the length invariant is part of the
type). -/
structure FeatureHeap : Type where
  cap : ℕ
  size : ℕ
  in_search : ℕ
  search_distance : ℕ
  search : ℕ
  worst : ℕ
  features : List (List ℕ)
  hfeat : features.length = 129

/-- `FeatureHeap::new` / `Default`. -/
def FeatureHeap.new : FeatureHeap :=
  ⟨0, 0, 0, 0, 0, 128, List.replicate 129 [], by simp⟩

/-- `FeatureHeap::reset`: asserts the capacity is nonzero (`none` models the
panic), then clears every bucket, keeping allocations. -/
def FeatureHeap.reset (fh : FeatureHeap) (cap search : ℕ) : Option FeatureHeap :=
  if cap = 0 then none
  else some ⟨cap, 0, 0, 0, search, 128, fh.features.map (fun _ => []), by
    rw [List.length_map, fh.hfeat]⟩

/-- `FeatureHeap::search_distance`: asserts monotonicity, then counts the
features in the newly covered buckets `search_distance+1 ..= distance` into
`in_search`. -/
def FeatureHeap.search_distance_upd (fh : FeatureHeap) (distance : ℕ) :
    Option FeatureHeap :=
  if distance < fh.search_distance then none
  else some { fh with
    in_search := fh.in_search +
      (((fh.features.drop (fh.search_distance + 1)).take
        (distance - fh.search_distance)).map List.length).sum,
    search_distance := distance }

/-- `FeatureHeap::update_worst`: scan `features[0..=worst]` from the top for
the first nonempty bucket (`none` models the `unwrap` panic when all are
empty). -/
def FeatureHeap.update_worst (fh : FeatureHeap) : Option FeatureHeap :=
  match ((fh.features.take (fh.worst + 1)).reverse).findIdx? (fun v => !v.isEmpty) with
  | some p => some { fh with worst := fh.worst - p }
  | none => none

/-- `FeatureHeap::remove_worst`: `Vec::pop` on the worst bucket (a no-op on
an empty bucket), then `update_worst`. -/
def FeatureHeap.remove_worst (fh : FeatureHeap) : Option FeatureHeap :=
  if fh.worst < fh.features.length then
    FeatureHeap.update_worst { fh with
      features := fh.features.set fh.worst ((fh.features.getD fh.worst []).dropLast),
      hfeat := by rw [List.length_set]; exact fh.hfeat }
  else none  -- indexing panic (`worst` is ≤ 128 on all reachable states)

/-- `FeatureHeap::add`. -/
def FeatureHeap.add (fh : FeatureHeap) (feature : ℕ) : Option FeatureHeap :=
  let distance := hdist feature fh.search
  let fh := if distance ≤ fh.search_distance then
    { fh with in_search := fh.in_search + 1 } else fh
  if fh.size ≠ fh.cap then
    if distance < fh.features.length then
      let fh1 : FeatureHeap := { fh with
        features := fh.features.set distance ((fh.features.getD distance []) ++ [feature]),
        size := fh.size + 1,
        hfeat := by rw [List.length_set]; exact fh.hfeat }
      if fh1.size = fh1.cap then fh1.update_worst else some fh1
    else none  -- indexing panic (distance is a popcount, hence ≤ 128)
  else if distance < fh.worst then
    if distance < fh.features.length then
      FeatureHeap.remove_worst { fh with
        features := fh.features.set distance ((fh.features.getD distance []) ++ [feature]),
        hfeat := by rw [List.length_set]; exact fh.hfeat }
    else none
  else some fh

/-- `FeatureHeap::done`. -/
def FeatureHeap.done (fh : FeatureHeap) : Bool := fh.cap ≤ fh.in_search

/-- `FeatureHeap::fill_slice`: copy `min(|dest|, size)` features into `dest`,
iterating buckets in ascending distance, and return the written prefix.
Slots beyond the actually available features keep `dest`'s old contents
(which cannot happen when `size` equals the stored feature count). -/
def FeatureHeap.fill_slice (fh : FeatureHeap) (dest : List ℕ) : List ℕ :=
  let total_fill := min dest.length fh.size
  let joined := fh.features.join
  (joined.take total_fill) ++ ((dest.drop joined.length).take (total_fill - joined.length))

/-- Adding a whole leaf bucket to the heap (the `for &f in leaves` loops of
`Hwt::nearest`). -/
def FeatureHeap.addAll (fh : FeatureHeap) (v : List ℕ) : Option FeatureHeap :=
  v.foldlM FeatureHeap.add fh

/-! ### The distance-indexed node queue (`src/hamming_queue.rs`) -/

/-- An entry of the node queue: the Rust code stores
`(&'static InternalMap, u8)` — a borrowed map and its level; the tree is
immutable during `nearest`, so the borrow is embedded as the map's
association list itself. -/
structure NodeQueue : Type where
  distances : List (List (List (ℕ × ℕ) × ℕ))
  lowest : ℕ
  hlen : distances.length = 129

/-- `NodeQueue::new`. -/
def NodeQueue.new : NodeQueue := ⟨List.replicate 129 [], 0, by simp⟩

/-- `NodeQueue::clear`. -/
def NodeQueue.clear (nq : NodeQueue) : NodeQueue :=
  ⟨nq.distances.map (fun _ => []), 0, by rw [List.length_map, nq.hlen]⟩

/-- `NodeQueue::add_one` (`none` models the indexing panic; all callers pass
distances ≤ 128). -/
def NodeQueue.add_one (nq : NodeQueue) (entry : ℕ × List (ℕ × ℕ) × ℕ) :
    Option NodeQueue :=
  if entry.1 < nq.distances.length then
    some ⟨nq.distances.set entry.1 ((nq.distances.getD entry.1 []) ++ [(entry.2.1, entry.2.2)]),
      nq.lowest, by rw [List.length_set, nq.hlen]⟩
  else none

/-- `NodeQueue::distance`: the index of the first nonempty bucket at or
above `lowest` (the Rust loop starting at `lowest` and the slice scan agree
because buckets below `lowest` are only reachable through `pop`, which
drains them first). -/
def NodeQueue.distance (nq : NodeQueue) : Option ℕ :=
  ((nq.distances.drop nq.lowest).findIdx? (fun v => !v.isEmpty)).map (fun n => n + nq.lowest)

/-- `NodeQueue::pop`: advance `lowest` to the first nonempty bucket and pop
its last entry; when everything from `lowest` up is empty, `lowest` ends at
128 and no entry is returned. -/
def NodeQueue.pop (nq : NodeQueue) :
    Option (ℕ × List (ℕ × ℕ) × ℕ) × NodeQueue :=
  match (nq.distances.drop nq.lowest).findIdx? (fun v => !v.isEmpty) with
  | none => (none, ⟨nq.distances, 128, nq.hlen⟩)
  | some n =>
      let i := nq.lowest + n
      let bucket := nq.distances.getD i []
      match bucket.getLast? with
      | some (m, lvl) =>
          (some (i, m, lvl), ⟨nq.distances.set i bucket.dropLast, i, by
            rw [List.length_set, nq.hlen]⟩)
      | none => (none, nq)  -- unreachable: the found bucket is nonempty

/-! ### `Hwt::nearest` (src/hwt.rs lines 242-594) -/

/-- The result of a `nearest` run: a filled prefix, a panic, or fuel
exhaustion of the embedding's loop counter. -/
inductive PResult : Type
  | ok (out : List ℕ)
  | panic
  | nofuel
deriving DecidableEq

/-- The per-child handling shared by the precision-search arms of
`Hwt::nearest`: look each emitted key up in the node's map; leaf children
feed the heap (with an early return when `done`); map children are enqueued
at their key's xor-popcount distance to `indices128[level+1]`. -/
def Hwt.nearestChildren (h : Hwt) (idxs : List ℕ) (level : ℕ)
    (m : List (ℕ × ℕ)) (dest : List ℕ) :
    List ℕ → NodeQueue → FeatureHeap → Except PResult (NodeQueue × FeatureHeap)
  | [], nq, fh => Except.ok (nq, fh)
  | tc :: rest, nq, fh =>
      match m.find? (fun e => e.1 == tc) with
      | none => Hwt.nearestChildren h idxs level m dest rest nq fh
      | some e =>
          match h.internals.get? e.2 with
          | none => Except.error PResult.panic
          | some (Internal.vec leaves) =>
              match fh.addAll leaves with
              | none => Except.error PResult.panic
              | some fh1 =>
                  if fh1.done then Except.error (PResult.ok (fh1.fill_slice dest))
                  else Hwt.nearestChildren h idxs level m dest rest nq fh1
          | some (Internal.map m') =>
              match nq.add_one (hdist tc (idxs.getD (level + 1) 0), m', level + 1) with
              | none => Except.error PResult.panic
              | some nq1 => Hwt.nearestChildren h idxs level m dest rest nq1 fh

/-- The brute-force arm of `Hwt::nearest` (taken when the node has fewer
than `TABLE_TAUS[level]` entries — dead code with the all-zero thresholds):
iterate every entry of the map instead of enumerating keys. -/
def Hwt.nearestBrute (h : Hwt) (idxs : List ℕ) (level : ℕ) (dest : List ℕ) :
    List (ℕ × ℕ) → NodeQueue → FeatureHeap → Except PResult (NodeQueue × FeatureHeap)
  | [], nq, fh => Except.ok (nq, fh)
  | e :: rest, nq, fh =>
      match h.internals.get? e.2 with
      | none => Except.error PResult.panic
      | some (Internal.vec leaves) =>
          match fh.addAll leaves with
          | none => Except.error PResult.panic
          | some fh1 =>
              if fh1.done then Except.error (PResult.ok (fh1.fill_slice dest))
              else Hwt.nearestBrute h idxs level dest rest nq fh1
      | some (Internal.map m') =>
          match nq.add_one (hdist e.1 (idxs.getD (level + 1) 0), m', level + 1) with
          | none => Except.error PResult.panic
          | some nq1 => Hwt.nearestBrute h idxs level dest rest nq1 fh

/-- Processing one popped node of the queue at shell `dist`: level 7 is
impossible (`unreachable!`); below the level threshold the map is
brute-forced, otherwise the per-level exact kernel enumerates the keys at
the current SOD shell, and the node re-enqueues itself at `dist + 1`. -/
def Hwt.nearestPop (h : Hwt) (idxs : List ℕ) (dest : List ℕ) (dist : ℕ)
    (m : List (ℕ × ℕ)) (level : ℕ) (nq : NodeQueue) (fh : FeatureHeap) :
    Except PResult (NodeQueue × FeatureHeap) :=
  if level = 7 then Except.error PResult.panic
  else if m.length < TABLE_TAUS.getD level 0 then
    Hwt.nearestBrute h idxs level dest m nq fh
  else
    match m.head? with
    | none => Except.error PResult.panic  -- `internal.iter().next().unwrap()`
    | some e0 =>
        let tcs :=
          match level with
          | 0 => Search.search_exact2 64 (idxs.getD 0 0) (idxs.getD 1 0) (packOnesAt 64 e0.1) dist
          | 1 => Search.search_exact4 32 (idxs.getD 1 0) (idxs.getD 2 0) (packOnesAt 32 e0.1) dist
          | 2 => Search.search_exact8 16 (idxs.getD 2 0) (idxs.getD 3 0) (packOnesAt 16 e0.1) dist
          | 3 => Search.search_exact16 8 (idxs.getD 3 0) (idxs.getD 4 0) (packOnesAt 8 e0.1) dist
          | 4 => Search.search_exact32 4 (idxs.getD 4 0) (idxs.getD 5 0) (packOnesAt 4 e0.1) dist
          | 5 => Search.search_exact64 2 (idxs.getD 5 0) (idxs.getD 6 0) (packOnesAt 2 e0.1) dist
          | _ => Search.search_exact128 1 (idxs.getD 6 0) (idxs.getD 7 0) (packOnesAt 1 e0.1) dist
        match Hwt.nearestChildren h idxs level m dest tcs nq fh with
        | Except.error r => Except.error r
        | Except.ok (nq1, fh1) =>
            if dist ≠ 128 then
              match nq1.add_one (dist + 1, m, level) with
              | none => Except.error PResult.panic
              | some nq2 => Except.ok (nq2, fh1)
            else Except.ok (nq1, fh1)

/-- The `while node_queue.distance() == Some(distance)` loop. -/
def Hwt.nearestInner (h : Hwt) (idxs : List ℕ) (dest : List ℕ) (d : ℕ) :
    ℕ → NodeQueue → FeatureHeap → Except PResult (NodeQueue × FeatureHeap)
  | fuel, nq, fh =>
    if nq.distance = some d then
      match fuel with
      | 0 => Except.error PResult.nofuel
      | fuel + 1 =>
          match nq.pop with
          | (none, nq1) => Hwt.nearestInner h idxs dest d fuel nq1 fh
          | (some (_, m, level), nq1) =>
              match Hwt.nearestPop h idxs dest d m level nq1 fh with
              | Except.error r => Except.error r
              | Except.ok (nq2, fh2) => Hwt.nearestInner h idxs dest d fuel nq2 fh2
    else Except.ok (nq, fh)

/-- The `for distance in 0..=max_weight` loop. -/
def Hwt.nearestOuter (h : Hwt) (idxs : List ℕ) (dest : List ℕ) (mw me : ℕ) :
    ℕ → ℕ → NodeQueue → FeatureHeap → PResult
  | fuel, d, nq, fh =>
    if d > mw then PResult.ok (fh.fill_slice dest)
    else
      match fh.search_distance_upd (min 128 (d + me)) with
      | none => PResult.panic
      | some fh1 =>
          if fh1.done then PResult.ok (fh1.fill_slice dest)
          else
            match Hwt.nearestInner h idxs dest d fuel nq fh1 with
            | Except.error r => r
            | Except.ok (nq2, fh2) =>
                match fuel with
                | 0 => PResult.nofuel
                | fuel + 1 => Hwt.nearestOuter h idxs dest mw me fuel (d + 1) nq2 fh2

/-- The root-map expansion of `Hwt::nearest`: leaf children feed the heap
directly (with a `done` early return), map children are enqueued at level 0
with their key's distance to `indices128[0]`, and children beyond
`max_weight` are skipped. -/
def Hwt.nearestRoot (h : Hwt) (idxs : List ℕ) (mw : ℕ) (dest : List ℕ) :
    List (ℕ × ℕ) → NodeQueue → FeatureHeap → Except PResult (NodeQueue × FeatureHeap)
  | [], nq, fh => Except.ok (nq, fh)
  | (tc, node) :: rest, nq, fh =>
      let distance := hdist tc (idxs.getD 0 0)
      if distance ≤ mw then
        match h.internals.get? node with
        | none => Except.error PResult.panic
        | some (Internal.vec v) =>
            match fh.addAll v with
            | none => Except.error PResult.panic
            | some fh1 =>
                if fh1.done then Except.error (PResult.ok (fh1.fill_slice dest))
                else Hwt.nearestRoot h idxs mw dest rest nq fh1
        | some (Internal.map m) =>
            match nq.add_one (distance, m, 0) with
            | none => Except.error PResult.panic
            | some nq1 => Hwt.nearestRoot h idxs mw dest rest nq1 fh
      else Hwt.nearestRoot h idxs mw dest rest nq fh

/-- `Hwt::nearest`: clear the queue, reset the heap to `|dest|` (panicking
on an empty destination), expand the root, then run the shell loop.  `fuel`
bounds the embedded loops' iterations; a `nofuel` result means the chosen
bound was insufficient, never that the Rust code returns. -/
def Hwt.nearest (h : Hwt) (feature mw me : ℕ) (node_queue : NodeQueue)
    (feature_heap : FeatureHeap) (dest : List ℕ) (fuel : ℕ) : PResult :=
  let idxs := indices128 feature
  let nq := node_queue.clear
  match feature_heap.reset dest.length feature with
  | none => PResult.panic
  | some fh =>
      match h.internals.get? 0 with
      | none => PResult.panic
      | some (Internal.vec v) =>
          match fh.addAll v with
          | none => PResult.panic
          | some fh1 => PResult.ok (fh1.fill_slice dest)
      | some (Internal.map m) =>
          match Hwt.nearestRoot h idxs mw dest m nq fh with
          | Except.error r => r
          | Except.ok (nq1, fh1) => Hwt.nearestOuter h idxs dest mw me fuel 0 nq1 fh1

/-- **C10**: `nearest` with an empty destination slice panics for every
index, query, weight/error bound, scratch state and fuel:
`FeatureHeap::reset` asserts its capacity (= `dest.len()`) is nonzero
before anything else runs. -/
theorem nearest_empty_dest_panics (h : Hwt) (feature mw me : ℕ)
    (nq : NodeQueue) (fh : FeatureHeap) (fuel : ℕ) :
    h.nearest feature mw me nq fh [] fuel = PResult.panic := rfl

set_option maxRecDepth 40000 in
/-- The index after inserting the feature `3` 65538 times and then the
feature `4` once: a root map with keys `CHF_0(3) = 2` and `CHF_0(4) = 1`,
a promoted depth-1 node under key 2, and two leaf buckets. -/
theorem hwtAfter_c2_state :
    hwtAfter (List.replicate 65538 3 ++ [4]) =
      some ⟨[Internal.map [(2, 1), (1, 3)], Internal.map [(2, 2)],
        Internal.vec (List.replicate 65538 3), Internal.vec [4]], 65539⟩ := by
  have h2 : Hwt.insert ⟨[Internal.map [(2, 1)],
      Internal.vec (List.replicate 65537 3)], 65537⟩ 3 =
      some ⟨[Internal.map [(2, 1)], Internal.map [(2, 2)],
        Internal.vec (List.replicate 65538 3)], 65538⟩ := by
    rw [Hwt.insert, show indices128 3 = [2, 2, 2, 2, 2, 2, 2, 3] from by decide]
    rw [insertGo_map_step [Internal.map [(2, 1)], Internal.vec (List.replicate 65537 3)]
      65538 3 [2, 2, 2, 2, 2, 2, 3] 2 0 0 [(2, 1)] 1 rfl rfl]
    rw [insertGo_vec_overflow [Internal.map [(2, 1)], Internal.vec (List.replicate 65537 3)]
      65538 3 [2, 2, 2, 2, 2, 3] 2 1 1 65537 rfl (by decide) (by decide)]
    rw [show indices128 3 = [2, 2, 2, 2, 2, 2, 2, 3] from by decide]
    rfl
  have h3 : Hwt.insert ⟨[Internal.map [(2, 1)], Internal.map [(2, 2)],
      Internal.vec (List.replicate 65538 3)], 65538⟩ 4 =
      some ⟨[Internal.map [(2, 1), (1, 3)], Internal.map [(2, 2)],
        Internal.vec (List.replicate 65538 3), Internal.vec [4]], 65539⟩ := by
    rw [Hwt.insert, show indices128 4 = [1, 1, 1, 1, 1, 1, 4, 4] from by decide]
    rw [insertGo_map_vacant [Internal.map [(2, 1)], Internal.map [(2, 2)],
      Internal.vec (List.replicate 65538 3)] 65539 4 [1, 1, 1, 1, 1, 4, 4] 1 0 0
      [(2, 1)] rfl rfl (by decide)]
    rfl
  have h1 : hwtAfter (List.replicate 65538 3) =
      some ⟨[Internal.map [(2, 1)], Internal.map [(2, 2)],
        Internal.vec (List.replicate 65538 3)], 65538⟩ := by
    have e : List.replicate 65538 3 = List.replicate 65537 3 ++ [3] := by
      rw [show (65538 : ℕ) = 65537 + 1 from rfl, List.replicate_succ']
    rw [hwtAfter]
    nth_rewrite 1 [e]
    rw [List.foldlM_append]
    rw [show List.foldlM Hwt.insert Hwt.new (List.replicate 65537 3) =
      hwtAfter (List.replicate 65537 3) from rfl]
    rw [show (65537 : ℕ) = TAU + 1 from by decide, hwtAfter_overflow 3]
    rw [show (indices128 3).getD 0 0 = 2 from by decide]
    rw [show TAU + 1 = 65537 from by decide]
    rw [option_some_bind, List.foldlM_cons, h2, option_some_bind, List.foldlM_nil]
    rfl
  rw [hwtAfter, List.foldlM_append]
  rw [show List.foldlM Hwt.insert Hwt.new (List.replicate 65538 3) =
    hwtAfter (List.replicate 65538 3) from rfl, h1]
  rw [option_some_bind, List.foldlM_cons, h3, option_some_bind, List.foldlM_nil]
  rfl

set_option maxRecDepth 200000 in
set_option maxHeartbeats 4000000 in
/-- **C2** (code_bug evidence): after inserting the feature `3` 65538
times (promoting two levels) and the feature `4` once, `nearest` on the
query `1` with `max_error = 0`, `max_weight = 128`, fresh scratch state
and a one-slot destination returns `[4]` at distance `2`, although the
inserted feature `3` is at distance `1`: the node queue prioritises
children by `popcount(key XOR CHF(q))`, which is not a lower bound on
the distance of the features below, so the heap fills with a
non-optimal feature and the loop stops before reaching `3`. -/
theorem nearest_not_optimal :
    ∃ s : Hwt,
      hwtAfter (List.replicate 65538 3 ++ [4]) = some s ∧
      s.len ≠ 0 ∧
      s.nearest 1 128 0 NodeQueue.new FeatureHeap.new [0] 300 =
        PResult.ok [4] ∧
      3 ∈ List.replicate 65538 3 ++ [4] ∧
      hdist 3 1 = 1 ∧ hdist 4 1 = 2 := by
  refine ⟨⟨[Internal.map [(2, 1), (1, 3)], Internal.map [(2, 2)],
    Internal.vec (List.replicate 65538 3), Internal.vec [4]], 65539⟩,
    hwtAfter_c2_state, by decide, ?_,
    List.mem_append_left _ (List.mem_replicate.mpr ⟨by decide, rfl⟩),
    by decide, by decide⟩
  decide

/-! ### The `FeatureHeap` bucket invariant behind `nearest`'s output order -/

/-- Invariant of the scratch heap during a `nearest` run for query `q`:
the stored query is `q`, `size` never exceeds the number of features
actually stored, and every feature sitting in bucket `i` is at Hamming
distance exactly `i` from `q`. -/
def FeatureHeap.Inv (q : ℕ) (fh : FeatureHeap) : Prop :=
  fh.search = q ∧
  fh.size ≤ fh.features.flatten.length ∧
  ∀ i bkt, fh.features.get? i = some bkt → ∀ f ∈ bkt, hdist f q = i

/-- Replacing bucket `i` by `v` changes the stored-feature count by
`|v| - |old bucket|` (stated additively to stay in `ℕ`). -/
theorem join_len_set (l : List (List ℕ)) : ∀ (i : ℕ) (v : List ℕ), i < l.length →
    ((l.set i v).flatten).length + (l.getD i []).length =
      l.flatten.length + v.length := by
  induction l with
  | nil => intro i v hi; simp at hi
  | cons b t ih =>
    intro i v hi
    cases i with
    | zero =>
      simp only [List.set_cons_zero, List.flatten_cons, List.length_append,
        List.getD_cons_zero]
      omega
    | succ j =>
      have h := ih j v (by simpa using hi)
      simp only [List.set_cons_succ, List.flatten_cons, List.length_append,
        List.getD_cons_succ]
      omega

/-- Setting bucket `i` to features at distance `i` preserves the
bucketing property. -/
theorem bucket_set (q : ℕ) (l : List (List ℕ)) (i : ℕ) (v : List ℕ)
    (hl : ∀ j bkt, l.get? j = some bkt → ∀ f ∈ bkt, hdist f q = j)
    (hv : ∀ f ∈ v, hdist f q = i) (hi : i < l.length) :
    ∀ j bkt, (l.set i v).get? j = some bkt → ∀ f ∈ bkt, hdist f q = j := by
  intro j bkt hj f hf
  by_cases hij : i = j
  · subst hij
    rw [List.get?_set_eq_of_lt _ hi] at hj
    cases hj
    exact hv f hf
  · rw [List.get?_set_ne _ _ hij] at hj
    exact hl j bkt hj f hf

/-- The concatenation of distance-indexed buckets is pairwise
nondecreasing in distance. -/
theorem join_pairwise_hdist (q : ℕ) : ∀ (l : List (List ℕ)) (base : ℕ),
    (∀ i bkt, l.get? i = some bkt → ∀ f ∈ bkt, hdist f q = base + i) →
    l.flatten.Pairwise (fun a b => hdist a q ≤ hdist b q) := by
  intro l
  induction l with
  | nil => intro base _; simp
  | cons b t ih =>
    intro base hl
    rw [List.flatten_cons, List.pairwise_append]
    have hb : ∀ f ∈ b, hdist f q = base := by
      intro f hf
      simpa using hl 0 b rfl f hf
    refine ⟨?_, ?_, ?_⟩
    · exact List.pairwise_iff_forall_sublist.mpr (by
        intro a c hs
        have ha := hb a (hs.subset (by simp))
        have hc := hb c (hs.subset (by simp))
        omega)
    · exact ih (base + 1) (fun i bkt hi f hf => by
        have := hl (i + 1) bkt (by simpa using hi) f hf
        omega)
    · intro a ha c hc
      have hda : hdist a q = base := hb a ha
      obtain ⟨bkt, hbkt, hcbkt⟩ := List.mem_flatten.mp hc
      obtain ⟨i, hgi⟩ := List.mem_iff_get?.mp hbkt
      have hdc := hl (i + 1) bkt (by simpa using hgi) c hcbkt
      omega

/-- On an invariant-satisfying heap, `fill_slice` output is chained in
nondecreasing distance to the query (the copied prefix is an initial
segment of the bucket concatenation, and no stale `dest` suffix survives
because `size` is covered by the stored features). -/
theorem fill_slice_sorted (q : ℕ) (fh : FeatureHeap) (dest : List ℕ)
    (hI : FeatureHeap.Inv q fh) :
    (fh.fill_slice dest).Chain' (fun a b => hdist a q ≤ hdist b q) := by
  have hle : min dest.length fh.size ≤ fh.features.flatten.length :=
    le_trans (min_le_right _ _) hI.2.1
  have hz : min dest.length fh.size - fh.features.flatten.length = 0 := by omega
  simp only [FeatureHeap.fill_slice, List.join]
  rw [hz, List.take_zero, List.append_nil]
  exact (List.Pairwise.sublist (List.take_sublist _ _)
    (join_pairwise_hdist q fh.features 0 (fun i bkt hi f hf => by
      have := hI.2.2 i bkt hi f hf
      omega))).chain'

/-- `update_worst` only moves the `worst` cursor, hence preserves the
invariant. -/
theorem update_worst_inv (q : ℕ) (fh fh' : FeatureHeap)
    (hI : FeatureHeap.Inv q fh) (h : fh.update_worst = some fh') :
    FeatureHeap.Inv q fh' := by
  unfold FeatureHeap.update_worst at h
  split at h
  · cases h; exact hI
  · cases h

/-- `remove_worst` pops at most one stored feature and keeps `size`, so it
preserves the invariant as long as the heap held strictly more features
than `size` (which is the case right after the push preceding it). -/
theorem remove_worst_inv (q : ℕ) (fh fh' : FeatureHeap)
    (hs : fh.search = q)
    (hsz : fh.size < fh.features.flatten.length)
    (hb : ∀ i bkt, fh.features.get? i = some bkt → ∀ f ∈ bkt, hdist f q = i)
    (h : fh.remove_worst = some fh') : FeatureHeap.Inv q fh' := by
  unfold FeatureHeap.remove_worst at h
  split at h
  case isTrue hw =>
    refine update_worst_inv q { fh with
      features := fh.features.set fh.worst ((fh.features.getD fh.worst []).dropLast),
      hfeat := by rw [List.length_set]; exact fh.hfeat } fh' ⟨hs, ?_, ?_⟩ h
    · have hj := join_len_set fh.features fh.worst
        ((fh.features.getD fh.worst []).dropLast) hw
      have hdl : ((fh.features.getD fh.worst []).dropLast).length =
          (fh.features.getD fh.worst []).length - 1 := List.length_dropLast _
      show fh.size ≤
        ((fh.features.set fh.worst ((fh.features.getD fh.worst []).dropLast)).flatten).length
      omega
    · refine bucket_set q fh.features fh.worst _ hb ?_ hw
      intro f hf
      obtain ⟨bkt, hbkt⟩ : ∃ bkt, fh.features.get? fh.worst = some bkt :=
        ⟨_, List.get?_eq_get hw⟩
      have hgd : fh.features.getD fh.worst [] = bkt := by
        rw [List.getD_eq_get?, hbkt]; rfl
      rw [hgd] at hf
      exact hb _ _ hbkt f ((List.dropLast_sublist bkt).subset hf)
  case isFalse => cases h

/-- `reset` establishes the invariant for the query it is given: every
bucket empty and `size = 0`. -/
theorem reset_inv (q cap : ℕ) (fh fh' : FeatureHeap)
    (h : fh.reset cap q = some fh') : FeatureHeap.Inv q fh' := by
  unfold FeatureHeap.reset at h
  split at h
  · cases h
  · cases h
    refine ⟨rfl, by simp, ?_⟩
    intro i bkt hi f hf
    rw [List.get?_map] at hi
    cases hg : fh.features.get? i with
    | none => rw [hg] at hi; cases hi
    | some b =>
        rw [hg] at hi
        cases hi
        cases hf

/-- `search_distance` only changes the cursor fields, preserving the
invariant. -/
theorem search_distance_upd_inv (q d : ℕ) (fh fh' : FeatureHeap)
    (hI : FeatureHeap.Inv q fh) (h : fh.search_distance_upd d = some fh') :
    FeatureHeap.Inv q fh' := by
  unfold FeatureHeap.search_distance_upd at h
  split at h
  · cases h
  · cases h; exact hI

/-- `add` preserves the invariant: the pushed feature lands in the bucket
indexed by its exact distance, and a possible `remove_worst` only drops a
stored feature while `size` is unchanged. -/
theorem add_inv (q feature : ℕ) (fh fh' : FeatureHeap)
    (hI : FeatureHeap.Inv q fh) (h : fh.add feature = some fh') :
    FeatureHeap.Inv q fh' := by
  obtain ⟨hs, hsz, hb⟩ := hI
  simp only [FeatureHeap.add] at h
  have hd : hdist feature fh.search = hdist feature q := by rw [hs]
  split at h
  · 
    try dsimp only at h
    split at h
    · split at h
      case isTrue hlen =>
        have hj := join_len_set fh.features (hdist feature fh.search)
          ((fh.features.getD (hdist feature fh.search) []) ++ [feature]) hlen
        rw [List.length_append, List.length_singleton] at hj
        have hbs : ∀ j bkt,
            (fh.features.set (hdist feature fh.search)
              ((fh.features.getD (hdist feature fh.search) []) ++ [feature])).get? j =
              some bkt → ∀ f ∈ bkt, hdist f q = j := by
          refine bucket_set q fh.features _ _ hb ?_ hlen
          intro f hf
          rcases List.mem_append.mp hf with hf | hf
          · obtain ⟨bkt, hbkt⟩ : ∃ bkt,
                fh.features.get? (hdist feature fh.search) = some bkt :=
              ⟨_, List.get?_eq_get hlen⟩
            have hgd : fh.features.getD (hdist feature fh.search) [] = bkt := by
              rw [List.getD_eq_get?, hbkt]; rfl
            rw [hgd] at hf
            exact hb _ _ hbkt f hf
          · rw [List.mem_singleton.mp hf, ← hd]
        split at h
        · refine update_worst_inv q _ fh' ?_ h
          refine ⟨hs, ?_, hbs⟩
          dsimp only
          omega
        · cases h
          refine ⟨hs, ?_, hbs⟩
          dsimp only
          omega
      case isFalse => cases h
    · split at h
      · split at h
        case isTrue hlen =>
          have hj := join_len_set fh.features (hdist feature fh.search)
            ((fh.features.getD (hdist feature fh.search) []) ++ [feature]) hlen
          rw [List.length_append, List.length_singleton] at hj
          refine remove_worst_inv q _ fh' ?_ ?_ ?_ h
          · exact hs
          · dsimp only
            omega
          · dsimp only
            refine bucket_set q fh.features _ _ hb ?_ hlen
            intro f hf
            rcases List.mem_append.mp hf with hf | hf
            · obtain ⟨bkt, hbkt⟩ : ∃ bkt,
                  fh.features.get? (hdist feature fh.search) = some bkt :=
                ⟨_, List.get?_eq_get hlen⟩
              have hgd : fh.features.getD (hdist feature fh.search) [] = bkt := by
                rw [List.getD_eq_get?, hbkt]; rfl
              rw [hgd] at hf
              exact hb _ _ hbkt f hf
            · rw [List.mem_singleton.mp hf, ← hd]
        case isFalse => cases h
      · cases h
        exact ⟨hs, hsz, hb⟩
  · 
    try dsimp only at h
    split at h
    · split at h
      case isTrue hlen =>
        have hj := join_len_set fh.features (hdist feature fh.search)
          ((fh.features.getD (hdist feature fh.search) []) ++ [feature]) hlen
        rw [List.length_append, List.length_singleton] at hj
        have hbs : ∀ j bkt,
            (fh.features.set (hdist feature fh.search)
              ((fh.features.getD (hdist feature fh.search) []) ++ [feature])).get? j =
              some bkt → ∀ f ∈ bkt, hdist f q = j := by
          refine bucket_set q fh.features _ _ hb ?_ hlen
          intro f hf
          rcases List.mem_append.mp hf with hf | hf
          · obtain ⟨bkt, hbkt⟩ : ∃ bkt,
                fh.features.get? (hdist feature fh.search) = some bkt :=
              ⟨_, List.get?_eq_get hlen⟩
            have hgd : fh.features.getD (hdist feature fh.search) [] = bkt := by
              rw [List.getD_eq_get?, hbkt]; rfl
            rw [hgd] at hf
            exact hb _ _ hbkt f hf
          · rw [List.mem_singleton.mp hf, ← hd]
        split at h
        · refine update_worst_inv q _ fh' ?_ h
          refine ⟨hs, ?_, hbs⟩
          dsimp only
          omega
        · cases h
          refine ⟨hs, ?_, hbs⟩
          dsimp only
          omega
      case isFalse => cases h
    · split at h
      · split at h
        case isTrue hlen =>
          have hj := join_len_set fh.features (hdist feature fh.search)
            ((fh.features.getD (hdist feature fh.search) []) ++ [feature]) hlen
          rw [List.length_append, List.length_singleton] at hj
          refine remove_worst_inv q _ fh' ?_ ?_ ?_ h
          · exact hs
          · dsimp only
            omega
          · dsimp only
            refine bucket_set q fh.features _ _ hb ?_ hlen
            intro f hf
            rcases List.mem_append.mp hf with hf | hf
            · obtain ⟨bkt, hbkt⟩ : ∃ bkt,
                  fh.features.get? (hdist feature fh.search) = some bkt :=
                ⟨_, List.get?_eq_get hlen⟩
              have hgd : fh.features.getD (hdist feature fh.search) [] = bkt := by
                rw [List.getD_eq_get?, hbkt]; rfl
              rw [hgd] at hf
              exact hb _ _ hbkt f hf
            · rw [List.mem_singleton.mp hf, ← hd]
        case isFalse => cases h
      · cases h
        exact ⟨hs, hsz, hb⟩

/-- Feeding a whole leaf bucket to the heap preserves the invariant. -/
theorem addAll_inv (q : ℕ) : ∀ (v : List ℕ) (fh fh' : FeatureHeap),
    FeatureHeap.Inv q fh → fh.addAll v = some fh' → FeatureHeap.Inv q fh' := by
  intro v
  induction v with
  | nil =>
    intro fh fh' hI h
    rw [FeatureHeap.addAll, List.foldlM_nil] at h
    cases h
    exact hI
  | cons x xs ih =>
    intro fh fh' hI h
    rw [FeatureHeap.addAll, List.foldlM_cons] at h
    cases hadd : fh.add x with
    | none => rw [hadd] at h; cases h
    | some fh1 =>
        rw [hadd, option_some_bind] at h
        exact ih fh1 fh' (add_inv q x fh fh1 hI hadd) h

/-- What `nearest`'s helper loops guarantee for the query `q`: a normal
continuation keeps the heap invariant, and an early "enough features"
return has already produced a distance-sorted slice. -/
def GoodRes (q : ℕ) : Except PResult (NodeQueue × FeatureHeap) → Prop
  | Except.ok (_, fh') => FeatureHeap.Inv q fh'
  | Except.error (PResult.ok out) => out.Chain' (fun a b => hdist a q ≤ hdist b q)
  | _ => True

/-- The final guarantee: a successful `nearest` output is distance-sorted. -/
def GoodP (q : ℕ) : PResult → Prop
  | PResult.ok out => out.Chain' (fun a b => hdist a q ≤ hdist b q)
  | _ => True

/-- A propagated early return stays good. -/
theorem goodRes_error (q : ℕ) (r : PResult)
    (h : GoodRes q (Except.error r)) : GoodP q r := by
  cases r with
  | ok out => exact h
  | panic => trivial
  | nofuel => trivial

/-- The per-child loop of the precision arms keeps the heap invariant and
only returns early with a sorted slice. -/
theorem nearestChildren_good (hw : Hwt) (idxs : List ℕ) (level : ℕ)
    (m : List (ℕ × ℕ)) (dest : List ℕ) (q : ℕ) :
    ∀ (tcs : List ℕ) (nq : NodeQueue) (fh : FeatureHeap), FeatureHeap.Inv q fh →
      GoodRes q (Hwt.nearestChildren hw idxs level m dest tcs nq fh) := by
  intro tcs
  induction tcs with
  | nil => intro nq fh hI; exact hI
  | cons tc rest ih =>
    intro nq fh hI
    rw [Hwt.nearestChildren]
    split
    · exact ih nq fh hI
    · split
      · trivial
      · split
        · trivial
        · next fh1 haddAll =>
            split
            · next hdone =>
                exact fill_slice_sorted q fh1 dest (addAll_inv q _ fh fh1 hI haddAll)
            · exact ih nq fh1 (addAll_inv q _ fh fh1 hI haddAll)
      · split
        · trivial
        · next nq1 hadd1 => exact ih nq1 fh hI

/-- The brute-force arm keeps the heap invariant and only returns early
with a sorted slice. -/
theorem nearestBrute_good (hw : Hwt) (idxs : List ℕ) (level : ℕ)
    (dest : List ℕ) (q : ℕ) :
    ∀ (es : List (ℕ × ℕ)) (nq : NodeQueue) (fh : FeatureHeap),
      FeatureHeap.Inv q fh →
      GoodRes q (Hwt.nearestBrute hw idxs level dest es nq fh) := by
  intro es
  induction es with
  | nil => intro nq fh hI; exact hI
  | cons e rest ih =>
    intro nq fh hI
    rw [Hwt.nearestBrute]
    split
    · trivial
    · split
      · trivial
      · next fh1 haddAll =>
          split
          · exact fill_slice_sorted q fh1 dest (addAll_inv q _ fh fh1 hI haddAll)
          · exact ih nq fh1 (addAll_inv q _ fh fh1 hI haddAll)
    · split
      · trivial
      · next nq1 hadd1 => exact ih nq1 fh hI

/-- An early-returning child loop has produced a sorted slice, whatever
its key list was. -/
theorem nearestChildren_good_err (hw : Hwt) (idxs : List ℕ) (level : ℕ)
    (m : List (ℕ × ℕ)) (dest : List ℕ) (q : ℕ) (tcs : List ℕ)
    (nq : NodeQueue) (fh : FeatureHeap) (hI : FeatureHeap.Inv q fh)
    (r : PResult)
    (h : Hwt.nearestChildren hw idxs level m dest tcs nq fh = Except.error r) :
    GoodP q r := by
  have hg := nearestChildren_good hw idxs level m dest q tcs nq fh hI
  rw [h] at hg
  exact goodRes_error q r hg

/-- A normally-returning child loop keeps the heap invariant, whatever its
key list was. -/
theorem nearestChildren_good_ok (hw : Hwt) (idxs : List ℕ) (level : ℕ)
    (m : List (ℕ × ℕ)) (dest : List ℕ) (q : ℕ) (tcs : List ℕ)
    (nq : NodeQueue) (fh : FeatureHeap) (nq1 : NodeQueue) (fh1 : FeatureHeap)
    (hI : FeatureHeap.Inv q fh)
    (h : Hwt.nearestChildren hw idxs level m dest tcs nq fh =
      Except.ok (nq1, fh1)) :
    FeatureHeap.Inv q fh1 := by
  have hg := nearestChildren_good hw idxs level m dest q tcs nq fh hI
  rw [h] at hg
  exact hg

/-- Processing one popped node keeps the heap invariant and only returns
early with a sorted slice. -/
theorem nearestPop_good (hw : Hwt) (idxs : List ℕ) (dest : List ℕ)
    (dist : ℕ) (m : List (ℕ × ℕ)) (level : ℕ) (nq : NodeQueue)
    (fh : FeatureHeap) (q : ℕ) (hI : FeatureHeap.Inv q fh) :
    GoodRes q (Hwt.nearestPop hw idxs dest dist m level nq fh) := by
  rw [Hwt.nearestPop]
  split
  · trivial
  · split
    · exact nearestBrute_good hw idxs level dest q m nq fh hI
    · split
      · trivial
      · dsimp only
        split
        · next r hch =>
            have hr := nearestChildren_good_err hw idxs level m dest q _ nq fh hI r hch
            cases r with
            | ok out => exact hr
            | panic => trivial
            | nofuel => trivial
        · next nq1 fh1 hch =>
            have hI1 := nearestChildren_good_ok hw idxs level m dest q _ nq fh nq1 fh1 hI hch
            split
            · split
              · trivial
              · exact hI1
            · exact hI1

/-- The inner `while`-loop of `nearest` keeps the heap invariant and only
returns early with a sorted slice. -/
theorem nearestInner_good (hw : Hwt) (idxs : List ℕ) (dest : List ℕ)
    (d : ℕ) (q : ℕ) : ∀ (fuel : ℕ) (nq : NodeQueue) (fh : FeatureHeap),
    FeatureHeap.Inv q fh →
    GoodRes q (Hwt.nearestInner hw idxs dest d fuel nq fh) := by
  intro fuel
  induction fuel with
  | zero =>
    intro nq fh hI
    rw [Hwt.nearestInner]
    split
    · trivial
    · exact hI
  | succ n ih =>
    intro nq fh hI
    rw [Hwt.nearestInner]
    split
    · split
      · next nq1 hpop => exact ih nq1 fh hI
      · next e m level nq1 hpop =>
          split
          · next r hpr =>
              have hg := nearestPop_good hw idxs dest d m level nq1 fh q hI
              rw [hpr] at hg
              exact hg
          · next nq2 fh2 hpr =>
              have hg := nearestPop_good hw idxs dest d m level nq1 fh q hI
              rw [hpr] at hg
              exact ih nq2 fh2 hg
    · exact hI

/-- The root expansion keeps the heap invariant and only returns early
with a sorted slice. -/
theorem nearestRoot_good (hw : Hwt) (idxs : List ℕ) (mw : ℕ)
    (dest : List ℕ) (q : ℕ) :
    ∀ (es : List (ℕ × ℕ)) (nq : NodeQueue) (fh : FeatureHeap),
      FeatureHeap.Inv q fh →
      GoodRes q (Hwt.nearestRoot hw idxs mw dest es nq fh) := by
  intro es
  induction es with
  | nil => intro nq fh hI; exact hI
  | cons e rest ih =>
    intro nq fh hI
    obtain ⟨tc, node⟩ := e
    rw [Hwt.nearestRoot]
    split
    · split
      · trivial
      · split
        · trivial
        · next fh1 haddAll =>
            split
            · exact fill_slice_sorted q fh1 dest (addAll_inv q _ fh fh1 hI haddAll)
            · exact ih nq fh1 (addAll_inv q _ fh fh1 hI haddAll)
      · split
        · trivial
        · next nq1 hadd1 => exact ih nq1 fh hI
    · exact ih nq fh hI

/-- The outer per-distance loop of `nearest` only produces sorted slices. -/
theorem nearestOuter_good (hw : Hwt) (idxs : List ℕ) (dest : List ℕ)
    (mw me : ℕ) (q : ℕ) : ∀ (fuel d : ℕ) (nq : NodeQueue) (fh : FeatureHeap),
    FeatureHeap.Inv q fh →
    GoodP q (Hwt.nearestOuter hw idxs dest mw me fuel d nq fh) := by
  intro fuel
  induction fuel with
  | zero =>
    intro d nq fh hI
    rw [Hwt.nearestOuter]
    split
    · exact fill_slice_sorted q fh dest hI
    · split
      · trivial
      · next fh1 hupd =>
          have hI1 := search_distance_upd_inv q _ fh fh1 hI hupd
          split
          · exact fill_slice_sorted q fh1 dest hI1
          · split
            · next r hin =>
                have hg := nearestInner_good hw idxs dest d q 0 nq fh1 hI1
                rw [hin] at hg
                exact goodRes_error q r hg
            · trivial
  | succ n ih =>
    intro d nq fh hI
    rw [Hwt.nearestOuter]
    split
    · exact fill_slice_sorted q fh dest hI
    · split
      · trivial
      · next fh1 hupd =>
          have hI1 := search_distance_upd_inv q _ fh fh1 hI hupd
          split
          · exact fill_slice_sorted q fh1 dest hI1
          · split
            · next r hin =>
                have hg := nearestInner_good hw idxs dest d q (n + 1) nq fh1 hI1
                rw [hin] at hg
                exact goodRes_error q r hg
            · next nq2 fh2 hin =>
                have hg := nearestInner_good hw idxs dest d q (n + 1) nq fh1 hI1
                rw [hin] at hg
                exact ih (d + 1) nq2 fh2 hg

/-- **C4**: for every index, query, bounds, scratch state, destination
buffer and fuel, a slice returned by `nearest` lists features in
nondecreasing Hamming distance to the query: the heap buckets features by
their exact distance and `fill_slice` drains the buckets in ascending
order, never leaving stale destination entries inside the returned
prefix. -/
theorem nearest_output_sorted (hw : Hwt) (feature mw me : ℕ)
    (node_queue : NodeQueue) (feature_heap : FeatureHeap) (dest : List ℕ)
    (fuel : ℕ) (out : List ℕ)
    (hout : hw.nearest feature mw me node_queue feature_heap dest fuel =
      PResult.ok out) :
    out.Chain' (fun a b => hdist a feature ≤ hdist b feature) := by
  simp only [Hwt.nearest] at hout
  split at hout
  · cases hout
  · next fh0 hreset =>
      have hI0 := reset_inv feature dest.length feature_heap fh0 hreset
      split at hout
      · cases hout
      · next v hget =>
          split at hout
          · cases hout
          · next fh1 haddAll =>
              cases hout
              exact fill_slice_sorted feature fh1 dest
                (addAll_inv feature v fh0 fh1 hI0 haddAll)
      · next m hget =>
          split at hout
          · next r hroot =>
              have hg := nearestRoot_good hw (indices128 feature) mw dest feature
                m node_queue.clear fh0 hI0
              rw [hroot] at hg
              have hp := goodRes_error feature r hg
              rw [hout] at hp
              exact hp
          · next nq1 fh1 hroot =>
              have hg := nearestRoot_good hw (indices128 feature) mw dest feature
                m node_queue.clear fh0 hI0
              rw [hroot] at hg
              have hp := nearestOuter_good hw (indices128 feature) dest mw me feature
                fuel 0 nq1 fh1 hg
              rw [hout] at hp
              exact hp

set_option maxRecDepth 40000 in
/-- Instance of the C4 ordering theorem on a one-feature index and a
two-slot destination. -/
theorem nearest_output_sorted_witness :
    List.Chain' (fun a b => hdist a 5 ≤ hdist b 5) [5] :=
  nearest_output_sorted ⟨[Internal.vec [5]], 1⟩ 5 128 0 NodeQueue.new
    FeatureHeap.new [0, 0] 10 [5] (by decide)

/-! ### The CHF bit-parallel primitives (`src/chf.rs`) -/

/-- `CLHF_MASKS` (src/chf.rs lines 78-86): per level, the mask keeping the
left-child (more significant) half of every parent field. -/
def CLHF_MASKS : List ℕ := [
  0xFFFFFFFFFFFFFFFF0000000000000000,
  0xFFFFFFFF00000000FFFFFFFF00000000,
  0xFFFF0000FFFF0000FFFF0000FFFF0000,
  0xFF00FF00FF00FF00FF00FF00FF00FF00,
  0xF0F0F0F0F0F0F0F0F0F0F0F0F0F0F0F0,
  0xCCCCCCCCCCCCCCCCCCCCCCCCCCCCCCCC,
  0xAAAAAAAAAAAAAAAAAAAAAAAAAAAAAAAA]

/-- `CRHF_MASKS` (src/chf.rs lines 88-96): per level, the mask keeping the
right-child (less significant) half of every parent field. -/
def CRHF_MASKS : List ℕ := [
  0x0000000000000000FFFFFFFFFFFFFFFF,
  0x00000000FFFFFFFF00000000FFFFFFFF,
  0x0000FFFF0000FFFF0000FFFF0000FFFF,
  0x00FF00FF00FF00FF00FF00FF00FF00FF,
  0x0F0F0F0F0F0F0F0F0F0F0F0F0F0F0F0F,
  0x33333333333333333333333333333333,
  0x55555555555555555555555555555555]

/-- `chf_to_clhf` (src/chf.rs lines 99-105; `none` models the panics for
levels outside `1..=7`). -/
def chf_to_clhf (chf n : ℕ) : Option ℕ :=
  if 1 ≤ n ∧ n ≤ 7 then some (chf &&& CLHF_MASKS.getD (n - 1) 0) else none

/-- `chf_to_crhf` (src/chf.rs lines 108-114). -/
def chf_to_crhf (chf n : ℕ) : Option ℕ :=
  if 1 ≤ n ∧ n ≤ 7 then some (chf &&& CRHF_MASKS.getD (n - 1) 0) else none

/-- `compute_crhf` (src/chf.rs lines 117-122):
`CRHF<n+1> = CHF<n> - (CLHF<n+1> >> (1 << (6 - n)))`; `none` models the
panic for `n > 6`.  The `u128` subtraction coincides with the `ℕ`
subtraction exactly when it does not underflow. -/
def compute_crhf (chf clhf n : ℕ) : Option ℕ :=
  if n ≤ 6 then some (chf - (clhf >>> (1 <<< (6 - n)))) else none

/-- A little-endian word of packed fields: field `i` (of width `w`) holds
`vs[i]`. -/
def packedW (w : ℕ) : List ℕ → ℕ
  | [] => 0
  | v :: rest => v + 2 ^ w * packedW w rest

/-- Sums of adjacent pairs: the parent fields over the child fields `vs`. -/
def pairSums : List ℕ → List ℕ
  | x :: y :: rest => (x + y) :: pairSums rest
  | _ => []

/-- The even-indexed (right-child) entries of a field list. -/
def evenFields : List ℕ → List ℕ
  | x :: _ :: rest => x :: evenFields rest
  | _ => []

/-- The odd-indexed (left-child) entries of a field list. -/
def oddFields : List ℕ → List ℕ
  | _ :: y :: rest => y :: oddFields rest
  | _ => []

/-- A field list with the even (right-child) entries zeroed. -/
def maskedOdd : List ℕ → List ℕ
  | _ :: y :: rest => 0 :: y :: maskedOdd rest
  | _ => []

/-- A field list with the odd (left-child) entries zeroed. -/
def maskedEven : List ℕ → List ℕ
  | x :: _ :: rest => x :: 0 :: maskedEven rest
  | _ => []

/-- `m` repetitions of the alternating mask fields `[0, 2^w - 1]` (the
packed form of a `CLHF` mask). -/
def maskAltL (w : ℕ) : ℕ → List ℕ
  | 0 => []
  | m + 1 => 0 :: (2 ^ w - 1) :: maskAltL w m

/-- `m` repetitions of the alternating mask fields `[2^w - 1, 0]` (the
packed form of a `CRHF` mask). -/
def maskAltR (w : ℕ) : ℕ → List ℕ
  | 0 => []
  | m + 1 => (2 ^ w - 1) :: 0 :: maskAltR w m

/-- A popcount is at most its input. -/
theorem popcount_le_self : ∀ n : ℕ, popcount n ≤ n := by
  intro n
  induction n using Nat.strong_induction_on with
  | _ n ih =>
    rcases Nat.eq_zero_or_pos n with h | h
    · subst h; exact le_refl 0
    · rw [popcount_succ n (by omega)]
      have := ih (n / 2) (by omega)
      omega

/-- Popcount is additive across a field boundary. -/
theorem popcount_add_shift : ∀ (w a b : ℕ), a < 2 ^ w →
    popcount (a + 2 ^ w * b) = popcount a + popcount b := by
  intro w
  induction w with
  | zero =>
    intro a b ha
    have : a = 0 := by omega
    subst this
    simp [show popcount 0 = 0 from rfl]
  | succ v ih =>
    intro a b ha
    rcases Nat.eq_zero_or_pos b with hb | hb
    · subst hb; simp [show popcount 0 = 0 from rfl]
    · have hpos : a + 2 ^ (v + 1) * b ≠ 0 := by
        have := Nat.two_pow_pos (v + 1)
        have : 2 ^ (v + 1) * b ≥ 2 ^ (v + 1) * 1 := Nat.mul_le_mul_left _ hb
        omega
      rw [popcount_succ _ hpos]
      have e1 : a + 2 ^ (v + 1) * b = a + 2 * (2 ^ v * b) := by ring
      have e2 : (a + 2 ^ (v + 1) * b) % 2 = a % 2 := by
        rw [e1, Nat.add_mul_mod_self_left]
      have e3 : (a + 2 ^ (v + 1) * b) / 2 = a / 2 + 2 ^ v * b := by
        rw [e1, Nat.add_mul_div_left _ _ (by norm_num)]
      rw [e2, e3, ih (a / 2) b (by omega)]
      rcases Nat.eq_zero_or_pos a with haz | haz
      · subst haz; simp [show popcount 0 = 0 from rfl]
      · rw [popcount_succ a (by omega)]
        omega

/-- Bitwise AND distributes over packed words split at a field boundary. -/
theorem land_split (w a b c d : ℕ) (ha : a < 2 ^ w) (hc : c < 2 ^ w) :
    (a + 2 ^ w * b) &&& (c + 2 ^ w * d) = (a &&& c) + 2 ^ w * (b &&& d) := by
  have hac : a &&& c < 2 ^ w := lt_of_le_of_lt Nat.and_le_left ha
  apply Nat.eq_of_testBit_eq
  intro j
  rw [Nat.testBit_and]
  rw [show a + 2 ^ w * b = 2 ^ w * b + a from by ring]
  rw [show c + 2 ^ w * d = 2 ^ w * d + c from by ring]
  rw [show (a &&& c) + 2 ^ w * (b &&& d) = 2 ^ w * (b &&& d) + (a &&& c) from by ring]
  rw [Nat.testBit_mul_pow_two_add b ha j, Nat.testBit_mul_pow_two_add d hc j,
    Nat.testBit_mul_pow_two_add (b &&& d) hac j]
  by_cases hj : j < w
  · simp only [if_pos hj, Nat.testBit_and]
  · simp only [if_neg hj, Nat.testBit_and]

/-- A double-width field splits into its two half-width children. -/
theorem fieldAt_split (u i x : ℕ) :
    fieldAt (2 * u) i x = fieldAt u (2 * i) x + 2 ^ u * fieldAt u (2 * i + 1) x := by
  show (x >>> (2 * u * i)) % 2 ^ (2 * u) =
    (x >>> (u * (2 * i))) % 2 ^ u + 2 ^ u * ((x >>> (u * (2 * i + 1))) % 2 ^ u)
  rw [show u * (2 * i + 1) = u * (2 * i) + u from by ring, Nat.shiftRight_add]
  rw [show 2 * u * i = u * (2 * i) from by ring]
  rw [show (2 : ℕ) ^ (2 * u) = 2 ^ u * 2 ^ u from by rw [two_mul, pow_add]]
  rw [Nat.mod_mul, Nat.shiftRight_eq_div_pow, Nat.shiftRight_eq_div_pow]

/-- A packed word of `range`-indexed fields is the field sum. -/
theorem packedW_range (w : ℕ) : ∀ (m : ℕ) (g : ℕ → ℕ),
    packedW w ((List.range m).map g) = ∑ i ∈ Finset.range m, g i * 2 ^ (w * i) := by
  intro m
  induction m with
  | zero => intro g; simp [packedW]
  | succ k ih =>
    intro g
    rw [List.range_succ_eq_map, List.map_cons, List.map_map]
    rw [show packedW w (g 0 :: List.map (g ∘ Nat.succ) (List.range k)) =
      g 0 + 2 ^ w * packedW w (List.map (g ∘ Nat.succ) (List.range k)) from rfl]
    rw [ih (g ∘ Nat.succ), Finset.sum_range_succ', Finset.mul_sum]
    have he : ∀ i : ℕ, 2 ^ w * ((g ∘ Nat.succ) i * 2 ^ (w * i)) = g (i + 1) * 2 ^ (w * (i + 1)) := by
      intro i
      show 2 ^ w * (g (i + 1) * 2 ^ (w * i)) = _
      rw [show w * (i + 1) = w + w * i from by ring, pow_add]
      ring
    rw [Finset.sum_congr rfl (fun i _ => he i)]
    rw [show g 0 * 2 ^ (w * 0) = g 0 from by rw [Nat.mul_zero, pow_zero, Nat.mul_one]]
    omega

/-- ANDing a packed word with the alternating left-child mask zeroes the
even fields and keeps the odd ones. -/
theorem packedW_and_odd (w : ℕ) : ∀ (m : ℕ) (vs : List ℕ),
    vs.length = 2 * m → (∀ v ∈ vs, v < 2 ^ w) →
    packedW w vs &&& packedW w (maskAltL w m) = packedW w (maskedOdd vs) := by
  intro m
  induction m with
  | zero =>
    intro vs hlen _
    rw [List.length_eq_zero.mp hlen]
    show (0 : ℕ) &&& 0 = 0
    exact Nat.zero_and 0
  | succ k ih =>
    intro vs hlen hb
    match vs with
    | x :: y :: rest =>
      have hx : x < 2 ^ w := hb x (by simp)
      have hy : y < 2 ^ w := hb y (by simp)
      show (x + 2 ^ w * (y + 2 ^ w * packedW w rest)) &&&
        (0 + 2 ^ w * ((2 ^ w - 1) + 2 ^ w * packedW w (maskAltL w k))) = _
      rw [land_split w x _ 0 _ hx (Nat.two_pow_pos w)]
      rw [land_split w y _ (2 ^ w - 1) _ hy (by have := Nat.two_pow_pos w; omega)]
      rw [Nat.and_zero, Nat.and_pow_two_sub_one_eq_mod, Nat.mod_eq_of_lt hy]
      rw [ih rest (by simp only [List.length_cons] at hlen; omega)
        (fun v hv => hb v (by simp [hv]))]
      rfl

/-- ANDing a packed word with the alternating right-child mask keeps the
even fields and zeroes the odd ones. -/
theorem packedW_and_even (w : ℕ) : ∀ (m : ℕ) (vs : List ℕ),
    vs.length = 2 * m → (∀ v ∈ vs, v < 2 ^ w) →
    packedW w vs &&& packedW w (maskAltR w m) = packedW w (maskedEven vs) := by
  intro m
  induction m with
  | zero =>
    intro vs hlen _
    rw [List.length_eq_zero.mp hlen]
    show (0 : ℕ) &&& 0 = 0
    exact Nat.zero_and 0
  | succ k ih =>
    intro vs hlen hb
    match vs with
    | x :: y :: rest =>
      have hx : x < 2 ^ w := hb x (by simp)
      have hy : y < 2 ^ w := hb y (by simp)
      show (x + 2 ^ w * (y + 2 ^ w * packedW w rest)) &&&
        ((2 ^ w - 1) + 2 ^ w * (0 + 2 ^ w * packedW w (maskAltR w k))) = _
      rw [land_split w x _ (2 ^ w - 1) _ hx (by have := Nat.two_pow_pos w; omega)]
      rw [land_split w y _ 0 _ hy (Nat.two_pow_pos w)]
      rw [Nat.and_zero, Nat.and_pow_two_sub_one_eq_mod, Nat.mod_eq_of_lt hx]
      rw [ih rest (by simp only [List.length_cons] at hlen; omega)
        (fun v hv => hb v (by simp [hv]))]
      rfl

/-- A packed word whose even fields are zero is the double-width packed
word of its odd fields, shifted up by one half-field. -/
theorem maskedOdd_packed (w : ℕ) : ∀ vs : List ℕ,
    packedW w (maskedOdd vs) = 2 ^ w * packedW (2 * w) (oddFields vs) := by
  intro vs
  induction vs using maskedOdd.induct with
  | case1 x y rest ih =>
    show 0 + 2 ^ w * (y + 2 ^ w * packedW w (maskedOdd rest)) =
      2 ^ w * (y + 2 ^ (2 * w) * packedW (2 * w) (oddFields rest))
    rw [ih, show (2 : ℕ) ^ (2 * w) = 2 ^ w * 2 ^ w from by rw [two_mul, pow_add]]
    ring
  | case2 t ht =>
    have he : maskedOdd t = [] := by
      rw [maskedOdd.eq_def]
      split
      · exact absurd rfl (ht _ _ _)
      · rfl
    have ho : oddFields t = [] := by
      rw [oddFields.eq_def]
      split
      · exact absurd rfl (ht _ _ _)
      · rfl
    rw [he, ho]
    show 0 = 2 ^ w * 0
    omega

/-- A packed word whose odd fields are zero is the double-width packed
word of its even fields. -/
theorem maskedEven_packed (w : ℕ) : ∀ vs : List ℕ,
    packedW w (maskedEven vs) = packedW (2 * w) (evenFields vs) := by
  intro vs
  induction vs using maskedEven.induct with
  | case1 x y rest ih =>
    show x + 2 ^ w * (0 + 2 ^ w * packedW w (maskedEven rest)) =
      x + 2 ^ (2 * w) * packedW (2 * w) (evenFields rest)
    rw [ih, show (2 : ℕ) ^ (2 * w) = 2 ^ w * 2 ^ w from by rw [two_mul, pow_add]]
    ring
  | case2 t ht =>
    have he : maskedEven t = [] := by
      rw [maskedEven.eq_def]
      split
      · exact absurd rfl (ht _ _ _)
      · rfl
    have hv : evenFields t = [] := by
      rw [evenFields.eq_def]
      split
      · exact absurd rfl (ht _ _ _)
      · rfl
    rw [he, hv]
    rfl

/-- Fieldwise dominated packed words subtract fieldwise: the left-child
fields never exceed the parent fields, so the `u128` subtraction in
`compute_crhf` never borrows and leaves exactly the right-child fields. -/
theorem packedW_pair_sub (u : ℕ) : ∀ vs : List ℕ,
    packedW u (oddFields vs) ≤ packedW u (pairSums vs) ∧
    packedW u (pairSums vs) - packedW u (oddFields vs) =
      packedW u (evenFields vs) := by
  intro vs
  induction vs using pairSums.induct with
  | case1 x y rest ih =>
    obtain ⟨hle, heq⟩ := ih
    obtain ⟨c, hc⟩ := Nat.exists_eq_add_of_le hle
    have hce : packedW u (evenFields rest) = c := by omega
    show y + 2 ^ u * packedW u (oddFields rest) ≤
        (x + y) + 2 ^ u * packedW u (pairSums rest) ∧
      ((x + y) + 2 ^ u * packedW u (pairSums rest)) -
        (y + 2 ^ u * packedW u (oddFields rest)) =
      x + 2 ^ u * packedW u (evenFields rest)
    rw [hc, hce, Nat.mul_add]
    omega
  | case2 t ht =>
    have h1 : oddFields t = [] := by
      rw [oddFields.eq_def]
      split
      · exact absurd rfl (ht _ _ _)
      · rfl
    have h2 : pairSums t = [] := by
      rw [pairSums.eq_def]
      split
      · exact absurd rfl (ht _ _ _)
      · rfl
    have h3 : evenFields t = [] := by
      rw [evenFields.eq_def]
      split
      · exact absurd rfl (ht _ _ _)
      · rfl
    rw [h1, h2, h3]
    exact ⟨le_refl _, rfl⟩

/-- Extracting a field of a packed word. -/
theorem fieldAt_packedW (u : ℕ) : ∀ (vs : List ℕ) (j : ℕ),
    (∀ v ∈ vs, v < 2 ^ u) →
    fieldAt u j (packedW u vs) = vs.getD j 0 := by
  intro vs
  induction vs with
  | nil =>
    intro j _
    show (0 >>> (u * j)) % 2 ^ u = 0
    rw [Nat.shiftRight_eq_div_pow, Nat.zero_div, Nat.zero_mod]
  | cons v rest ih =>
    intro j hb
    have hv : v < 2 ^ u := hb v (by simp)
    cases j with
    | zero =>
      show (packedW u (v :: rest) >>> (u * 0)) % 2 ^ u = v
      rw [Nat.mul_zero, Nat.shiftRight_eq_div_pow, pow_zero, Nat.div_one]
      show (v + 2 ^ u * packedW u rest) % 2 ^ u = v
      rw [Nat.add_mul_mod_self_left, Nat.mod_eq_of_lt hv]
    | succ j =>
      show (packedW u (v :: rest) >>> (u * (j + 1))) % 2 ^ u = rest.getD j 0
      rw [show u * (j + 1) = u + u * j from by ring, Nat.shiftRight_add]
      have hshift : packedW u (v :: rest) >>> u = packedW u rest := by
        show (v + 2 ^ u * packedW u rest) >>> u = packedW u rest
        rw [Nat.shiftRight_eq_div_pow,
          Nat.add_mul_div_left _ _ (Nat.two_pow_pos u),
          Nat.div_eq_of_lt hv]
        omega
      rw [hshift]
      exact ih j (fun x hx => hb x (by simp [hx]))

/-- Left-child fields are dominated by parent fields, position by
position. -/
theorem oddFields_getD_le (vs : List ℕ) : ∀ j : ℕ,
    (oddFields vs).getD j 0 ≤ (pairSums vs).getD j 0 := by
  induction vs using pairSums.induct with
  | case1 x y rest ih =>
    intro j
    cases j with
    | zero => show y ≤ x + y; omega
    | succ j => exact ih j
  | case2 t ht =>
    intro j
    have h1 : oddFields t = [] := by
      rw [oddFields.eq_def]
      split
      · exact absurd rfl (ht _ _ _)
      · rfl
    rw [h1]
    show (0 : ℕ) ≤ _
    omega

/-- Odd-position fields are among the fields. -/
theorem mem_oddFields (vs : List ℕ) (v : ℕ) (h : v ∈ oddFields vs) : v ∈ vs := by
  induction vs using pairSums.induct with
  | case1 x y rest ih =>
    rcases h with _ | h
    · simp
    · simp only [List.mem_cons]
      right; right
      exact ih (by assumption)
  | case2 t ht =>
    have h1 : oddFields t = [] := by
      rw [oddFields.eq_def]
      split
      · exact absurd rfl (ht _ _ _)
      · rfl
    rw [h1] at h
    cases h

/-- Pair sums of bounded fields are bounded by the doubled bound. -/
theorem pairSums_bound (c : ℕ) (vs : List ℕ) (hb : ∀ v ∈ vs, v < c) :
    ∀ v ∈ pairSums vs, v < 2 * c := by
  induction vs using pairSums.induct with
  | case1 x y rest ih =>
    intro v hv
    rcases hv with _ | hv
    · have hx := hb x (by simp)
      have hy := hb y (by simp)
      omega
    · exact ih (fun z hz => hb z (by simp [hz])) v (by assumption)
  | case2 t ht =>
    intro v hv
    have h2 : pairSums t = [] := by
      rw [pairSums.eq_def]
      split
      · exact absurd rfl (ht _ _ _)
      · rfl
    rw [h2] at hv
    cases hv

/-- Pair sums of a `range`-indexed field list pair consecutive indices. -/
theorem pairSums_range : ∀ (m : ℕ) (g : ℕ → ℕ),
    pairSums ((List.range (2 * m)).map g) =
      (List.range m).map (fun i => g (2 * i) + g (2 * i + 1)) := by
  intro m
  induction m with
  | zero => intro g; rfl
  | succ k ih =>
    intro g
    have hr : List.range (2 * (k + 1)) =
        0 :: 1 :: ((List.range (2 * k)).map (fun i => i + 2)) := by
      rw [show 2 * (k + 1) = (2 * k) + 1 + 1 from by ring]
      rw [List.range_succ_eq_map, List.range_succ_eq_map, List.map_cons,
        List.map_map]
      refine congrArg (fun l => 0 :: 1 :: l) ?_
      exact List.map_congr_left (fun a _ => by
        show Nat.succ (Nat.succ a) = a + 2
        omega)
    rw [hr, List.map_cons, List.map_cons, List.map_map]
    show (g 0 + g 1) :: pairSums ((List.range (2 * k)).map (g ∘ (fun i => i + 2))) = _
    have hc : (List.range (2 * k)).map (g ∘ (fun i => i + 2)) =
        (List.range (2 * k)).map (fun i => g (i + 2)) := rfl
    rw [hc, ih (fun i => g (i + 2))]
    rw [List.range_succ_eq_map, List.map_cons, List.map_map]
    refine congrArg (fun l => (g 0 + g 1) :: l) ?_
    refine List.map_congr_left (fun a _ => ?_)
    show g (2 * a + 2) + g (2 * a + 1 + 2) = g (2 * Nat.succ a) + g (2 * Nat.succ a + 1)
    rw [show 2 * Nat.succ a = 2 * a + 2 from by omega,
      show 2 * a + 1 + 2 = 2 * a + 2 + 1 from by omega]

set_option maxRecDepth 200000 in
/-- The `CLHF` mask table entries are the packed alternating masks. -/
theorem maskL_eq (n : ℕ) (hn : n ≤ 6) :
    CLHF_MASKS.getD n 0 = packedW (2 ^ (6 - n)) (maskAltL (2 ^ (6 - n)) (2 ^ n)) := by
  interval_cases n <;> decide

set_option maxRecDepth 200000 in
/-- The `CRHF` mask table entries are the packed alternating masks. -/
theorem maskR_eq (n : ℕ) (hn : n ≤ 6) :
    CRHF_MASKS.getD n 0 = packedW (2 ^ (6 - n)) (maskAltR (2 ^ (6 - n)) (2 ^ n)) := by
  interval_cases n <;> decide

/-- **C9**: for every feature `f` and level `n ≤ 6`, `compute_crhf` applied
to the parent form `CHF_n(f)` and the masked left-child form
`CLHF_(n+1)(f)` yields exactly the right-child form `CRHF_(n+1)(f)`, and
the `u128` subtraction never borrows across field boundaries: in every
parent-width field the subtrahend is dominated by the minuend. -/
theorem compute_crhf_right_child (f n : ℕ) (hf : f < 2 ^ 128) (hn : n ≤ 6) :
    ∃ clhf crhf : ℕ,
      chf_to_clhf (chfLevel (n + 1) f) (n + 1) = some clhf ∧
      chf_to_crhf (chfLevel (n + 1) f) (n + 1) = some crhf ∧
      compute_crhf (chfLevel n f) clhf n = some crhf ∧
      ∀ j : ℕ, fieldAt (128 / 2 ^ n) j (clhf >>> (1 <<< (6 - n))) ≤
        fieldAt (128 / 2 ^ n) j (chfLevel n f) := by
  have hwpos := Nat.two_pow_pos (6 - n)
  have hw1 : 1 ≤ 2 ^ (6 - n) := hwpos
  have hpow : 2 ^ (n + 1) = 2 * 2 ^ n := by rw [pow_succ]; ring
  have h128n1 : 128 / 2 ^ (n + 1) = 2 ^ (6 - n) := by
    rw [show (128 : ℕ) = 2 ^ 7 from by norm_num,
      Nat.pow_div (by omega) (by norm_num)]
    congr 1
    omega
  have h128n : 128 / 2 ^ n = 2 * 2 ^ (6 - n) := by
    rw [show (128 : ℕ) = 2 ^ 7 from by norm_num,
      Nat.pow_div (by omega) (by norm_num)]
    rw [show 7 - n = (6 - n) + 1 from by omega, pow_succ]
    ring
  have hshift : 1 <<< (6 - n) = 2 ^ (6 - n) := by rw [Nat.shiftLeft_eq, one_mul]
  have hqlen : ((List.range (2 * 2 ^ n)).map (fun i => popcount (fieldAt (2 ^ (6 - n)) i f))).length = 2 * 2 ^ n := by
    rw [List.length_map, List.length_range]
  have hqb : ∀ v ∈ ((List.range (2 * 2 ^ n)).map (fun i => popcount (fieldAt (2 ^ (6 - n)) i f))), v < 2 ^ 2 ^ (6 - n) := by
    intro v hv
    obtain ⟨i, _, rfl⟩ := List.mem_map.mp hv
    exact lt_of_le_of_lt (popcount_le_self _) (Nat.mod_lt _ (Nat.two_pow_pos _))
  have hnext : chfLevel (n + 1) f = packedW (2 ^ (6 - n)) ((List.range (2 * 2 ^ n)).map (fun i => popcount (fieldAt (2 ^ (6 - n)) i f))) := by
    rw [chfLevel, h128n1, hpow, packedW_range]
  have hpar : chfLevel n f =
      packedW (2 * 2 ^ (6 - n)) (pairSums ((List.range (2 * 2 ^ n)).map (fun i => popcount (fieldAt (2 ^ (6 - n)) i f)))) := by
    rw [chfLevel, h128n, pairSums_range, packedW_range]
    refine Finset.sum_congr rfl (fun i _ => ?_)
    rw [fieldAt_split,
      popcount_add_shift (2 ^ (6 - n)) (fieldAt (2 ^ (6 - n)) (2 * i) f)
        (fieldAt (2 ^ (6 - n)) (2 * i + 1) f) (Nat.mod_lt _ (Nat.two_pow_pos _))]
  have hoddb : ∀ v ∈ oddFields ((List.range (2 * 2 ^ n)).map (fun i => popcount (fieldAt (2 ^ (6 - n)) i f))), v < 2 ^ (2 * 2 ^ (6 - n)) := by
    intro v hv
    refine lt_of_lt_of_le (hqb v (mem_oddFields _ v hv)) ?_
    exact Nat.pow_le_pow_right (by norm_num) (by omega)
  have hpairb : ∀ v ∈ pairSums ((List.range (2 * 2 ^ n)).map (fun i => popcount (fieldAt (2 ^ (6 - n)) i f))), v < 2 ^ (2 * 2 ^ (6 - n)) := by
    intro v hv
    refine lt_of_lt_of_le (pairSums_bound _ _ hqb v hv) ?_
    calc 2 * 2 ^ 2 ^ (6 - n) = 2 ^ (2 ^ (6 - n) + 1) := by rw [pow_succ]; ring
    _ ≤ 2 ^ (2 * 2 ^ (6 - n)) := Nat.pow_le_pow_right (by norm_num) (by omega)
  have hclhf : chf_to_clhf (chfLevel (n + 1) f) (n + 1) =
      some (packedW (2 ^ (6 - n)) (maskedOdd ((List.range (2 * 2 ^ n)).map (fun i => popcount (fieldAt (2 ^ (6 - n)) i f))))) := by
    rw [chf_to_clhf, if_pos ⟨by omega, by omega⟩, Nat.add_sub_cancel]
    rw [hnext, maskL_eq n hn, packedW_and_odd _ (2 ^ n) _ hqlen hqb]
  have hcrhf : chf_to_crhf (chfLevel (n + 1) f) (n + 1) =
      some (packedW (2 ^ (6 - n)) (maskedEven ((List.range (2 * 2 ^ n)).map (fun i => popcount (fieldAt (2 ^ (6 - n)) i f))))) := by
    rw [chf_to_crhf, if_pos ⟨by omega, by omega⟩, Nat.add_sub_cancel]
    rw [hnext, maskR_eq n hn, packedW_and_even _ (2 ^ n) _ hqlen hqb]
  have hdroplow : packedW (2 ^ (6 - n)) (maskedOdd ((List.range (2 * 2 ^ n)).map (fun i => popcount (fieldAt (2 ^ (6 - n)) i f)))) >>> (1 <<< (6 - n)) =
      packedW (2 * 2 ^ (6 - n)) (oddFields ((List.range (2 * 2 ^ n)).map (fun i => popcount (fieldAt (2 ^ (6 - n)) i f)))) := by
    rw [hshift, maskedOdd_packed, Nat.shiftRight_eq_div_pow]
    exact Nat.mul_div_cancel_left _ (Nat.two_pow_pos _)
  have hsub : compute_crhf (chfLevel n f)
      (packedW (2 ^ (6 - n)) (maskedOdd ((List.range (2 * 2 ^ n)).map (fun i => popcount (fieldAt (2 ^ (6 - n)) i f))))) n =
      some (packedW (2 ^ (6 - n)) (maskedEven ((List.range (2 * 2 ^ n)).map (fun i => popcount (fieldAt (2 ^ (6 - n)) i f))))) := by
    rw [compute_crhf, if_pos hn, hdroplow, hpar,
      (packedW_pair_sub (2 * 2 ^ (6 - n)) ((List.range (2 * 2 ^ n)).map (fun i => popcount (fieldAt (2 ^ (6 - n)) i f)))).2, maskedEven_packed]
  refine ⟨packedW (2 ^ (6 - n)) (maskedOdd ((List.range (2 * 2 ^ n)).map (fun i => popcount (fieldAt (2 ^ (6 - n)) i f)))),
    packedW (2 ^ (6 - n)) (maskedEven ((List.range (2 * 2 ^ n)).map (fun i => popcount (fieldAt (2 ^ (6 - n)) i f)))), hclhf, hcrhf, hsub, ?_⟩
  intro j
  rw [hdroplow, hpar, h128n,
    fieldAt_packedW (2 * 2 ^ (6 - n)) (oddFields ((List.range (2 * 2 ^ n)).map (fun i => popcount (fieldAt (2 ^ (6 - n)) i f)))) j hoddb,
    fieldAt_packedW (2 * 2 ^ (6 - n)) (pairSums ((List.range (2 * 2 ^ n)).map (fun i => popcount (fieldAt (2 ^ (6 - n)) i f)))) j hpairb]
  exact oddFields_getD_le _ j

/-- Instance of the C9 theorem at level 2 on a concrete feature. -/
theorem compute_crhf_right_child_witness :
    (0xDEADBEEF : ℕ) < 2 ^ 128 ∧ (2 : ℕ) ≤ 6 ∧
    (∃ clhf crhf : ℕ,
      chf_to_clhf (chfLevel (2 + 1) 0xDEADBEEF) (2 + 1) = some clhf ∧
      chf_to_crhf (chfLevel (2 + 1) 0xDEADBEEF) (2 + 1) = some crhf ∧
      compute_crhf (chfLevel 2 0xDEADBEEF) clhf 2 = some crhf ∧
      ∀ j : ℕ, fieldAt (128 / 2 ^ 2) j (clhf >>> (1 <<< (6 - 2))) ≤
        fieldAt (128 / 2 ^ 2) j (chfLevel 2 0xDEADBEEF)) :=
  ⟨by decide, by decide, compute_crhf_right_child 0xDEADBEEF 2 (by decide) (by decide)⟩
